import Mathlib

/-!
Verification of `src/foundry/merge_deployments.py`.

The script reads `broadcast/uniswapContracts/<chainId>/deployedCrossLiquid.json`
for every entry of `os.listdir("broadcast/uniswapContracts")` except the literal
name `31337`, accumulates the parsed JSON values in a dict in enumeration order,
and then writes `../agent/src/contracts/deployed.ts` containing
`export const deployedContracts = \x7b` followed by one line
`  <chainId>: <json.dumps(value, indent=2)>,` per entry and a closing brace.

The embedding models:
  * JSON values (`Json`) as the tagged tree Python's `json` module produces,
    with numbers restricted to integers: floating-point payloads (fractions,
    exponents, `NaN`, `Infinity`) are outside the model, as are Python strings
    holding lone UTF-16 surrogates, which `Char` cannot represent;
  * `json.dumps(v, indent=2)` with its default `ensure_ascii=True` escaping
    (`dumpsVal` / `jsonDumps`);
  * `json.load`'s grammar (`parseValue` / `jsonLoads`), including whitespace
    skipping, strict control-character rejection inside strings, `\uXXXX`
    escapes with surrogate-pair recombination, and last-value-wins,
    first-position-kept semantics for duplicate object keys;
  * the script itself: `collect` (the reading loop) and `run` (the whole
    invocation including the final write block), over an abstract input
    directory (`InputFS`) and the state of the output path (`OutputFS`).

All definitions are structurally recursive so that the kernel can evaluate
them on concrete inputs; arrays and object member lists are therefore a
mutual inductive family rather than nested `List`s.
-/

mutual

/-- JSON values as produced by Python's `json.load`, with numbers restricted to
integers.  Object members are kept in insertion order, as Python dicts do. -/
inductive Json where
  | null : Json
  | bool : Bool → Json
  | num : Int → Json
  | str : List Char → Json
  | arr : JsonList → Json
  | obj : JsonMembers → Json

/-- The items of a JSON array, in order. -/
inductive JsonList where
  | nil : JsonList
  | cons : Json → JsonList → JsonList

/-- The members of a JSON object, in insertion order. -/
inductive JsonMembers where
  | nil : JsonMembers
  | cons : List Char → Json → JsonMembers → JsonMembers

end

/-- The characters Python's `json` scanner skips between tokens. -/
def isJsonWs (c : Char) : Bool :=
  c = ' ' || c = '\t' || c = '\n' || c = '\r'

/-- Drop leading JSON whitespace. -/
def skipWs : List Char → List Char
  | [] => []
  | c :: rest => if isJsonWs c then skipWs rest else c :: rest

/-- Indentation emitted by `json.dumps(·, indent=2)` at nesting level `lvl`. -/
def ind (lvl : Nat) : List Char := List.replicate (2 * lvl) ' '

/-- Lowercase hexadecimal digit, as in Python's `\uXXXX` escapes. -/
def hexDigitChar (n : Nat) : Char :=
  if n < 10 then Char.ofNat (48 + n) else Char.ofNat (87 + n)

/-- Four lowercase hex digits of `n < 0x10000`, most significant first. -/
def fourHex (n : Nat) : List Char :=
  [hexDigitChar (n / 4096 % 16), hexDigitChar (n / 256 % 16),
   hexDigitChar (n / 16 % 16), hexDigitChar (n % 16)]

/-- Escaping of one character by `json.dumps` with `ensure_ascii=True`:
`"` and `\` and the C0 shorthands get two-character escapes, the other
characters outside `0x20`–`0x7e` become `\uXXXX` (a UTF-16 surrogate pair for
code points above `0xffff`), and printable ASCII passes through. -/
def escapeChar (c : Char) : List Char :=
  if c = '\"' then ['\\', '\"']
  else if c = '\\' then ['\\', '\\']
  else if c = Char.ofNat 8 then ['\\', 'b']
  else if c = Char.ofNat 12 then ['\\', 'f']
  else if c = '\n' then ['\\', 'n']
  else if c = '\r' then ['\\', 'r']
  else if c = '\t' then ['\\', 't']
  else if c.toNat < 0x20 ∨ (0x7f ≤ c.toNat ∧ c.toNat < 0x10000) then
    '\\' :: 'u' :: fourHex c.toNat
  else if 0x10000 ≤ c.toNat then
    '\\' :: 'u' :: fourHex (0xd800 + (c.toNat - 0x10000) / 0x400) ++
      '\\' :: 'u' :: fourHex (0xdc00 + (c.toNat - 0x10000) % 0x400)
  else [c]

/-- Escape every character of a string body. -/
def escapeString (s : List Char) : List Char := s.flatMap escapeChar

/-- A JSON string literal: quote, escaped body, quote. -/
def quoteString (s : List Char) : List Char :=
  '\"' :: escapeString s ++ ['\"']

/-- Decimal digits of `n`, most significant first, provided `n < 10 ^ fuel`.
The fuel only makes the recursion structural. -/
def natToDigitsAux : Nat → Nat → List Char
  | 0, _ => []
  | fuel + 1, n =>
    if n < 10 then [Char.ofNat (48 + n)]
    else natToDigitsAux fuel (n / 10) ++ [Char.ofNat (48 + n % 10)]

/-- Decimal digits of `n`, most significant first, as `repr(int)` prints them. -/
def natToDigits (n : Nat) : List Char := natToDigitsAux (n + 1) n

/-- Decimal rendering of an integer, as `json.dumps` prints Python ints. -/
def intToChars (i : Int) : List Char :=
  if i < 0 then '-' :: natToDigits i.natAbs else natToDigits i.toNat

mutual

/-- The characters `json.dumps(v, indent=2)` produces for `v` when the opening
character of `v` sits at nesting level `lvl`.  Matches CPython's
`_make_iterencode`: items of non-empty containers each start on their own line
indented two more spaces, separated by `,`, with the closing bracket on its own
line at the enclosing indentation; empty containers print as `[]` / `\x7b\x7d`;
the key separator is `: `. -/
def dumpsVal : Nat → Json → List Char
  | _, .null => ['n', 'u', 'l', 'l']
  | _, .bool true => ['t', 'r', 'u', 'e']
  | _, .bool false => ['f', 'a', 'l', 's', 'e']
  | _, .num i => intToChars i
  | _, .str s => quoteString s
  | _, .arr .nil => ['[', ']']
  | lvl, .arr (.cons x xs) =>
    '[' :: '\n' :: ind (lvl + 1) ++ dumpsVal (lvl + 1) x ++
      dumpsItems (lvl + 1) xs ++ '\n' :: ind lvl ++ [']']
  | _, .obj .nil => ['\x7b', '\x7d']
  | lvl, .obj (.cons k v kvs) =>
    '\x7b' :: '\n' :: ind (lvl + 1) ++ quoteString k ++ ':' :: ' ' ::
      dumpsVal (lvl + 1) v ++ dumpsMembers (lvl + 1) kvs ++
      '\n' :: ind lvl ++ ['\x7d']

/-- Second and later array items: `,`, newline, indentation, item. -/
def dumpsItems : Nat → JsonList → List Char
  | _, .nil => []
  | lvl, .cons x xs =>
    ',' :: '\n' :: ind lvl ++ dumpsVal lvl x ++ dumpsItems lvl xs

/-- Second and later object members: `,`, newline, indentation, key, `: `, value. -/
def dumpsMembers : Nat → JsonMembers → List Char
  | _, .nil => []
  | lvl, .cons k v kvs =>
    ',' :: '\n' :: ind lvl ++ quoteString k ++ ':' :: ' ' ::
      dumpsVal lvl v ++ dumpsMembers lvl kvs

end

/-- Model of `json.dumps(v, indent=2)` as the script calls it (top level). -/
def jsonDumps (v : Json) : List Char := dumpsVal 0 v

/-- Value of one hexadecimal digit, either case, as in Python's `\uXXXX`. -/
def parseHexDigit (c : Char) : Option Nat :=
  if 48 ≤ c.toNat ∧ c.toNat ≤ 57 then some (c.toNat - 48)
  else if 97 ≤ c.toNat ∧ c.toNat ≤ 102 then some (c.toNat - 87)
  else if 65 ≤ c.toNat ∧ c.toNat ≤ 70 then some (c.toNat - 55)
  else none

/-- Value of four hexadecimal digits, most significant first. -/
def parseHex4 (a b c d : Char) : Option Nat :=
  match parseHexDigit a, parseHexDigit b, parseHexDigit c, parseHexDigit d with
  | some x, some y, some z, some w => some (4096 * x + 256 * y + 16 * z + w)
  | _, _, _, _ => none

/-- Body of a JSON string literal after the opening quote, per Python's strict
scanner: ends at the closing quote, rejects raw control characters, and decodes
backslash escapes.  `\uXXXX` recombines a high surrogate with a following
`\uXXXX` low surrogate as Python does; a lone surrogate, which Python would
keep as an unpaired UTF-16 code unit in its string, has no `Char` counterpart
and makes the model reject the input.  Returns the decoded body and the input
after the closing quote.  The fuel only bounds recursion depth; every call
site supplies more than the input's length, which is more than any parse can
use, since each step consumes at least one character. -/
def parseStringBody : Nat → List Char → Option (List Char × List Char)
  | 0, _ => none
  | _ + 1, [] => none
  | fuel + 1, c :: rest =>
    if c = '\"' then some ([], rest)
    else if c = '\\' then
      match rest with
      | [] => none
      | e :: cs =>
        if e = '\"' then (parseStringBody fuel cs).map (fun p => ('\"' :: p.1, p.2))
        else if e = '\\' then (parseStringBody fuel cs).map (fun p => ('\\' :: p.1, p.2))
        else if e = '/' then (parseStringBody fuel cs).map (fun p => ('/' :: p.1, p.2))
        else if e = 'b' then (parseStringBody fuel cs).map (fun p => (Char.ofNat 8 :: p.1, p.2))
        else if e = 'f' then (parseStringBody fuel cs).map (fun p => (Char.ofNat 12 :: p.1, p.2))
        else if e = 'n' then (parseStringBody fuel cs).map (fun p => ('\n' :: p.1, p.2))
        else if e = 'r' then (parseStringBody fuel cs).map (fun p => ('\r' :: p.1, p.2))
        else if e = 't' then (parseStringBody fuel cs).map (fun p => ('\t' :: p.1, p.2))
        else if e = 'u' then
          match cs with
          | h1 :: h2 :: h3 :: h4 :: cs2 =>
            match parseHex4 h1 h2 h3 h4 with
            | none => none
            | some n =>
              if n < 0xd800 ∨ 0xe000 ≤ n then
                (parseStringBody fuel cs2).map (fun p => (Char.ofNat n :: p.1, p.2))
              else if n < 0xdc00 then
                match cs2 with
                | b1 :: u1 :: g1 :: g2 :: g3 :: g4 :: cs3 =>
                  if b1 = '\\' ∧ u1 = 'u' then
                    match parseHex4 g1 g2 g3 g4 with
                    | some m =>
                      if 0xdc00 ≤ m ∧ m < 0xe000 then
                        (parseStringBody fuel cs3).map
                          (fun p =>
                            (Char.ofNat (0x10000 + (n - 0xd800) * 0x400 + (m - 0xdc00))
                              :: p.1, p.2))
                      else none
                    | none => none
                  else none
                | _ => none
              else none
          | _ => none
        else none
    else if c.toNat < 0x20 then none
    else (parseStringBody fuel rest).map (fun p => (c :: p.1, p.2))

/-- Numeric value of a decimal digit character. -/
def digitVal (c : Char) : Nat := c.toNat - 48

/-- Consume a run of decimal digits, folding them onto `acc`. -/
def takeDigits (acc : Nat) : List Char → Nat × List Char
  | [] => (acc, [])
  | c :: rest =>
    if c.isDigit then takeDigits (acc * 10 + digitVal c) rest else (acc, c :: rest)

/-- Unsigned integer part of Python's JSON number grammar: a lone `0`, or a
nonzero digit followed by any digits.  A leading `0` is never followed by more
digits, exactly as CPython's `NUMBER_RE` stops there. -/
def parseUNum : List Char → Option (Nat × List Char)
  | [] => none
  | c :: rest =>
    if c = '0' then some (0, rest)
    else if c.isDigit then some (takeDigits (digitVal c) rest)
    else none

/-- A JSON number, restricted to the integer fragment of the model: a fraction
or exponent would make Python produce a float, which the model rejects. -/
def parseNumber : List Char → Option (Int × List Char)
  | '-' :: rest =>
    match parseUNum rest with
    | none => none
    | some (n, r) =>
      match r with
      | c :: _ => if c = '.' ∨ c = 'e' ∨ c = 'E' then none else some (-(n : Int), r)
      | [] => some (-(n : Int), [])
  | s =>
    match parseUNum s with
    | none => none
    | some (n, r) =>
      match r with
      | c :: _ => if c = '.' ∨ c = 'e' ∨ c = 'E' then none else some ((n : Int), r)
      | [] => some ((n : Int), [])

/-- Python-dict insertion: an existing key keeps its position and takes the new
value, a new key goes to the end. -/
def insertKV : JsonMembers → List Char → Json → JsonMembers
  | .nil, k, v => .cons k v .nil
  | .cons k' v' t, k, v =>
    if k' = k then .cons k' v t else .cons k' v' (insertKV t k v)

/-- Build the dict Python's object decoder returns from the member list in
source order. -/
def buildObj : JsonMembers → JsonMembers → JsonMembers
  | acc, .nil => acc
  | acc, .cons k v t => buildObj (insertKV acc k v) t

mutual

/-- One JSON value, starting at the first non-whitespace character, per
Python's scanner dispatch on that character.  `fuel` only bounds recursion
depth; `jsonLoads` supplies more than any input can use. -/
def parseValue : Nat → List Char → Option (Json × List Char)
  | 0, _ => none
  | _ + 1, [] => none
  | fuel + 1, c :: rest =>
    if c = 'n' then
      match rest with
      | 'u' :: 'l' :: 'l' :: r => some (.null, r)
      | _ => none
    else if c = 't' then
      match rest with
      | 'r' :: 'u' :: 'e' :: r => some (.bool true, r)
      | _ => none
    else if c = 'f' then
      match rest with
      | 'a' :: 'l' :: 's' :: 'e' :: r => some (.bool false, r)
      | _ => none
    else if c = '\"' then
      (parseStringBody (rest.length + 1) rest).map (fun p => (.str p.1, p.2))
    else if c = '[' then
      match skipWs rest with
      | ']' :: r => some (.arr .nil, r)
      | r1 => (parseItems fuel r1).map (fun p => (.arr p.1, p.2))
    else if c = '\x7b' then
      match skipWs rest with
      | '\x7d' :: r => some (.obj .nil, r)
      | r1 => (parseMembers fuel r1).map (fun p => (.obj (buildObj .nil p.1), p.2))
    else if c = '-' ∨ c.isDigit then
      (parseNumber (c :: rest)).map (fun p => (.num p.1, p.2))
    else none

/-- Items of a non-empty array: value, then either `,` and more items or the
closing bracket. -/
def parseItems : Nat → List Char → Option (JsonList × List Char)
  | 0, _ => none
  | fuel + 1, s =>
    match parseValue fuel s with
    | none => none
    | some (v, r) =>
      match skipWs r with
      | ']' :: r2 => some (.cons v .nil, r2)
      | ',' :: r2 =>
        (parseItems fuel (skipWs r2)).map (fun p => (.cons v p.1, p.2))
      | _ => none

/-- Members of a non-empty object: quoted key, `:`, value, then either `,` and
more members or the closing brace.  Returns the raw member list in source
order; `parseValue` folds it through `buildObj`. -/
def parseMembers : Nat → List Char → Option (JsonMembers × List Char)
  | 0, _ => none
  | fuel + 1, s =>
    match s with
    | '\"' :: s1 =>
      match parseStringBody (s1.length + 1) s1 with
      | none => none
      | some (k, s2) =>
        match skipWs s2 with
        | ':' :: s3 =>
          match parseValue fuel (skipWs s3) with
          | none => none
          | some (v, s4) =>
            match skipWs s4 with
            | '\x7d' :: s5 => some (.cons k v .nil, s5)
            | ',' :: s5 =>
              (parseMembers fuel (skipWs s5)).map (fun p => (.cons k v p.1, p.2))
            | _ => none
        | _ => none
    | _ => none

end

/-- Model of `json.load` on file contents `s`: skip leading whitespace, parse
one value, and require the remainder to be whitespace.  The fuel `s.length + 1`
exceeds the recursion depth of any parse of `s`. -/
def jsonLoads (s : List Char) : Option Json :=
  match parseValue (s.length + 1) (skipWs s) with
  | some (v, r) => if skipWs r = [] then some v else none
  | none => none

/-- Characters of a string literal, used to write paths and file payloads. -/
def chars (s : String) : List Char := s.data

/-- The chain id the script skips: `if chainId == "31337": continue`. -/
def excludedId : List Char := chars "31337"

/-- The input side of one invocation: the enumeration
`os.listdir("broadcast/uniswapContracts")` in the order the file system
returned it, and for each name the contents of
`broadcast/uniswapContracts/<name>/deployedCrossLiquid.json`
(`none` when opening that file raises `FileNotFoundError`). -/
structure InputFS where
  listing : List (List Char)
  file : List Char → Option (List Char)

/-- State of the output path `../agent/src/contracts/deployed.ts` before or
after a run: whether its parent directory exists, and the file's contents. -/
structure OutputFS where
  dirExists : Bool
  fileContent : Option (List Char)

/-- An uncaught exception terminating the run: `FileNotFoundError` from the
per-chain `open`, `json.JSONDecodeError` from `json.load`, or
`FileNotFoundError` from opening the output file for writing when its parent
directory is missing. -/
inductive MergeError where
  | fileAccess : List Char → MergeError
  | parseFail : List Char → MergeError
  | outputAccess : MergeError
deriving DecidableEq

/-- The reading loop of the script over the enumerated names: skip `31337`,
open and `json.load` each remaining chain's file, and record the pairs in
enumeration order.  The first failing entry raises; nothing is caught. -/
def collectFrom (file : List Char → Option (List Char)) :
    List (List Char) → Except MergeError (List (List Char × Json))
  | [] => .ok []
  | c :: rest =>
    if c = excludedId then collectFrom file rest
    else
      match file c with
      | none => .error (.fileAccess c)
      | some txt =>
        match jsonLoads txt with
        | none => .error (.parseFail c)
        | some v => (collectFrom file rest).map (fun m => (c, v) :: m)

/-- The `deployments` dict at the end of the reading loop. -/
def collect (fs : InputFS) : Except MergeError (List (List Char × Json)) :=
  collectFrom fs.file fs.listing

/-- The characters the write block produces: the header line, then
`f"  \x7bchainId\x7d: \x7bjson.dumps(deployment, indent=2)\x7d,\n"` for each
entry in dict order, then the closing line. -/
def emitContent (m : List (List Char × Json)) : List Char :=
  chars "export const deployedContracts = \x7b\n" ++
    (m.map (fun kv => chars "  " ++ kv.1 ++ chars ": " ++ jsonDumps kv.2 ++ chars ",\n")).flatten ++
    chars "\x7d\n"

/-- Outcome of one invocation: the state of the output path afterwards and the
uncaught exception, if any. -/
structure RunResult where
  outDirExists : Bool
  outFile : Option (List Char)
  err : Option MergeError
deriving DecidableEq

/-- One invocation of the script against input `fs` with the output path in
state `st`: the reading loop runs first and an exception there leaves the
output path untouched; only after it finishes is the output file opened with
mode `w`, which fails (leaving the path untouched, creating no directory) when
the parent directory is missing, and otherwise replaces the file with the full
emitted text. -/
def run (fs : InputFS) (st : OutputFS) : RunResult :=
  match collect fs with
  | .error e => ⟨st.dirExists, st.fileContent, some e⟩
  | .ok m =>
    if st.dirExists then ⟨true, some (emitContent m), none⟩
    else ⟨false, st.fileContent, some .outputAccess⟩

/-- Does the member list contain the key? -/
def hasKey : JsonMembers → List Char → Bool
  | .nil, _ => false
  | .cons k _ t, key => k = key || hasKey t key

mutual

/-- Well-formedness of a value as `json.load` produces it: every object's keys
are pairwise distinct (they came from a Python dict). -/
def wfJson : Json → Bool
  | .null => true
  | .bool _ => true
  | .num _ => true
  | .str _ => true
  | .arr xs => wfList xs
  | .obj kvs => wfMembers kvs

/-- Well-formedness of every item of an array. -/
def wfList : JsonList → Bool
  | .nil => true
  | .cons x xs => wfJson x && wfList xs

/-- Distinct keys at this level, and well-formed values. -/
def wfMembers : JsonMembers → Bool
  | .nil => true
  | .cons k v t => !(hasKey t k) && wfJson v && wfMembers t

end

/-- A typical per-chain file payload, used as a concrete witness input. -/
def routerTxt : List Char := chars "\x7b\"Router\": \"0xAA\"\x7d"

/-- The value `json.load` yields for `routerTxt`. -/
def routerVal : Json := .obj (.cons (chars "Router") (.str (chars "0xAA")) .nil)

/-- Witness input: two ordinary chains, both files present and valid. -/
def fsTwo : InputFS :=
  ⟨[chars "1", chars "137"],
   fun c => if c = chars "1" ∨ c = chars "137" then some routerTxt else none⟩

/-- The mapping the reading loop builds from `fsTwo`. -/
def mTwo : List (List Char × Json) := [(chars "1", routerVal), (chars "137", routerVal)]

/-- Witness input: an ordinary chain plus a well-formed `31337` directory. -/
def fsWithLocal : InputFS :=
  ⟨[chars "1", chars "31337"],
   fun c => if c = chars "1" ∨ c = chars "31337" then some routerTxt else none⟩

/-- Witness input: the single chain directory lacks its expected file. -/
def fsBad : InputFS := ⟨[chars "1"], fun _ => none⟩

/-- Witness input: the single chain's file holds text that is not JSON. -/
def fsInvalid : InputFS :=
  ⟨[chars "1"], fun c => if c = chars "1" then some (chars "not json") else none⟩

/-- Witness file map: chain `1` valid, everything else (including `31337`) missing. -/
def fileNoLocal : List Char → Option (List Char) :=
  fun c => if c = chars "1" then some routerTxt else none

/-- Witness file map: like `fileNoLocal` but `31337` holds unparseable text. -/
def fileBadLocal : List Char → Option (List Char) :=
  fun c => if c = chars "1" then some routerTxt
    else if c = excludedId then some (chars "garbage") else none

/-- Witness input: same listing and per-chain contents as `fsTwo` but every
other path on disk differs. -/
def fsTwoJunk : InputFS :=
  ⟨[chars "1", chars "137"],
   fun c => if c = chars "1" ∨ c = chars "137" then some routerTxt
     else some (chars "junk")⟩

/-- Does the input continue with something the number scanner would also
consume (a digit) or hand to the float grammar (`.`, `e`, `E`)?  The
serializer never puts such a character right after a rendered number. -/
def numStop : List Char → Bool
  | [] => true
  | c :: _ => !(c.isDigit || c = '.' || c = 'e' || c = 'E')

/-- Concatenation of member lists. -/
def appendMembers : JsonMembers → JsonMembers → JsonMembers
  | .nil, ys => ys
  | .cons k v t, ys => .cons k v (appendMembers t ys)

/-- Are all values of a raw member list well-formed? -/
def wfVals : JsonMembers → Bool
  | .nil => true
  | .cons _ v t => wfJson v && wfVals t

/-- When every listed name is non-excluded and its file parses, the loop
succeeds and produces one entry per name, keyed in enumeration order. -/
theorem collectFrom_ok_of_valid (file : List Char → Option (List Char))
    (L : List (List Char))
    (h1 : ∀ c ∈ L, c ≠ excludedId)
    (h2 : ∀ c ∈ L, ∃ t v, file c = some t ∧ jsonLoads t = some v) :
    ∃ m, collectFrom file L = .ok m ∧ m.map Prod.fst = L := by
  induction L with
  | nil => exact ⟨[], rfl, rfl⟩
  | cons c L ih =>
    obtain ⟨t, v, hf, hl⟩ := h2 c (List.mem_cons_self ..)
    obtain ⟨m, hm, hmap⟩ := ih (fun x hx => h1 x (List.mem_cons_of_mem _ hx))
      (fun x hx => h2 x (List.mem_cons_of_mem _ hx))
    refine ⟨(c, v) :: m, ?_, by simp [hmap]⟩
    simp [collectFrom, h1 c (List.mem_cons_self ..), hf, hl, hm, Except.map]

/-- Every entry of a successful loop's result comes from a listed, non-excluded
name, and its value is exactly what `json.load` returned for that name's file. -/
theorem collectFrom_mem_spec (file : List Char → Option (List Char)) :
    ∀ (L : List (List Char)) (m : List (List Char × Json)),
      collectFrom file L = .ok m →
      ∀ kv ∈ m, kv.1 ∈ L ∧ kv.1 ≠ excludedId ∧
        ∃ t, file kv.1 = some t ∧ jsonLoads t = some kv.2 := by
  intro L
  induction L with
  | nil =>
    intro m hm kv hkv
    simp only [collectFrom] at hm
    cases hm
    simp at hkv
  | cons c L ih =>
    intro m hm kv hkv
    by_cases hex : c = excludedId
    · rw [collectFrom, if_pos hex] at hm
      obtain ⟨h1, h2, h3⟩ := ih m hm kv hkv
      exact ⟨List.mem_cons_of_mem _ h1, h2, h3⟩
    · rw [collectFrom, if_neg hex] at hm
      cases hf : file c with
      | none => simp only [hf] at hm; cases hm
      | some txt =>
        simp only [hf] at hm
        cases hl : jsonLoads txt with
        | none => simp only [hl] at hm; cases hm
        | some v =>
          simp only [hl] at hm
          cases hrec : collectFrom file L with
          | error e => simp only [hrec, Except.map] at hm; cases hm
          | ok m' =>
            simp only [hrec, Except.map, Except.ok.injEq] at hm
            subst hm
            rcases List.mem_cons.mp hkv with rfl | hkv'
            · exact ⟨List.mem_cons_self .., hex, txt, hf, hl⟩
            · obtain ⟨h1, h2, h3⟩ := ih m' hrec kv hkv'
              exact ⟨List.mem_cons_of_mem _ h1, h2, h3⟩

/-- If some listed, non-excluded name lacks its file or its file does not
parse, the loop raises: a `FileNotFoundError` for a missing file or a
`JSONDecodeError` for unparseable contents, with no recovery. -/
theorem collectFrom_error_of_bad (file : List Char → Option (List Char)) :
    ∀ (L : List (List Char)) (c : List Char), c ∈ L → c ≠ excludedId →
      (file c = none ∨ ∃ t, file c = some t ∧ jsonLoads t = none) →
      ∃ e, collectFrom file L = .error e ∧
        ((∃ c', e = .fileAccess c' ∧ file c' = none) ∨
         (∃ c' t, e = .parseFail c' ∧ file c' = some t ∧ jsonLoads t = none)) := by
  intro L
  induction L with
  | nil => intro c hc; simp at hc
  | cons a L ih =>
    intro c hc hne hbad
    by_cases hex : a = excludedId
    · have hcL : c ∈ L := by
        rcases List.mem_cons.mp hc with rfl | h
        · exact absurd hex hne
        · exact h
      obtain ⟨e, he, hs⟩ := ih c hcL hne hbad
      exact ⟨e, by rw [collectFrom, if_pos hex]; exact he, hs⟩
    · rw [collectFrom, if_neg hex]
      cases hf : file a with
      | none => exact ⟨.fileAccess a, rfl, Or.inl ⟨a, rfl, hf⟩⟩
      | some txt =>
        cases hl : jsonLoads txt with
        | none => exact ⟨.parseFail a, by simp only [hl], Or.inr ⟨a, txt, rfl, hf, hl⟩⟩
        | some v =>
          have hac : c ≠ a := by
            rintro rfl
            rcases hbad with h | ⟨t, ht, hlt⟩
            · rw [hf] at h; cases h
            · rw [hf] at ht; cases ht; rw [hl] at hlt; cases hlt
          have hcL : c ∈ L := by
            rcases List.mem_cons.mp hc with rfl | h
            · exact absurd rfl hac
            · exact h
          obtain ⟨e, he, hs⟩ := ih c hcL hne hbad
          exact ⟨e, by simp only [hl, he, Except.map], hs⟩

/-- The loop's outcome depends only on the files of listed, non-excluded
names: in particular the `31337` entry's file is never opened. -/
theorem collectFrom_congr (f1 f2 : List Char → Option (List Char)) :
    ∀ L : List (List Char), (∀ c ∈ L, c ≠ excludedId → f1 c = f2 c) →
      collectFrom f1 L = collectFrom f2 L := by
  intro L
  induction L with
  | nil => intro _; rfl
  | cons c L ih =>
    intro h
    have hrec := ih (fun x hx => h x (List.mem_cons_of_mem _ hx))
    by_cases hex : c = excludedId
    · rw [collectFrom, if_pos hex, collectFrom, if_pos hex, hrec]
    · rw [collectFrom, if_neg hex, collectFrom, if_neg hex,
        h c (List.mem_cons_self ..) hex, hrec]

/-- Claim C1, counterexample: with the parent directory of the output path
absent, the run does not create it and does not succeed — `open(..., "w")`
raises, since the script never calls `os.makedirs`. -/
theorem claim_C1_counterexample :
    run ⟨[], fun _ => none⟩ ⟨false, none⟩ = ⟨false, none, some .outputAccess⟩ := rfl

/-- Claim C1, amended: when the parent directory of the output path exists, a
run whose collection succeeds emits and does not error, and running twice in a
row does not error; when the parent directory does not exist, the run fails
with an output-access error and the directory is not created. -/
theorem claim_C1 (fs : InputFS) (st : OutputFS) (m : List (List Char × Json))
    (hc : collect fs = .ok m) :
    (st.dirExists = true →
      run fs st = ⟨true, some (emitContent m), none⟩ ∧
      run fs ⟨(run fs st).outDirExists, (run fs st).outFile⟩ =
        ⟨true, some (emitContent m), none⟩) ∧
    (st.dirExists = false →
      run fs st = ⟨false, st.fileContent, some .outputAccess⟩) := by
  constructor
  · intro hd
    constructor
    · simp [run, hc, hd]
    · simp [run, hc, hd]
  · intro hd
    simp [run, hc, hd]

/-- Witness for C1: the missing-directory half at a concrete input. -/
theorem claim_C1_witness :
    run fsTwo ⟨false, none⟩ = ⟨false, none, some .outputAccess⟩ :=
  (claim_C1 fsTwo ⟨false, none⟩ mTwo rfl).2 rfl

/-- Claim C2, counterexample: a missing per-chain file does not leave a
truncated output file — at this input the pre-existing output file survives
byte-for-byte, because the reading loop finishes (here: raises) before the
output file is ever opened. -/
theorem claim_C2_counterexample :
    run fsBad ⟨true, some (chars "OLD")⟩ =
      ⟨true, some (chars "OLD"), some (.fileAccess (chars "1"))⟩ := rfl

/-- Claim C2, amended: collection completes before the output file is opened,
so any failure of the reading loop (for example a missing per-chain file)
leaves the output path exactly as it was — no creation, no truncation.  Only
the write block, entered after all inputs are read, writes the output file. -/
theorem claim_C2 (fs : InputFS) (st : OutputFS) (e : MergeError)
    (hc : collect fs = .error e) :
    run fs st = ⟨st.dirExists, st.fileContent, some e⟩ := by
  simp [run, hc]

/-- Witness for C2 at a concrete failing input. -/
theorem claim_C2_witness :
    run fsBad ⟨false, none⟩ = ⟨false, none, some (.fileAccess (chars "1"))⟩ :=
  claim_C2 fsBad ⟨false, none⟩ (.fileAccess (chars "1")) rfl

/-- Claim C3: for an input tree with N distinct chain subdirectories, none
named `31337`, each holding a parseable `deployedCrossLiquid.json`, collection
succeeds with exactly N entries keyed by the subdirectory names in order. -/
theorem claim_C3 (fs : InputFS) (h0 : fs.listing.Nodup)
    (h1 : ∀ c ∈ fs.listing, c ≠ excludedId)
    (h2 : ∀ c ∈ fs.listing, ∃ t v, fs.file c = some t ∧ jsonLoads t = some v) :
    ∃ m, collect fs = .ok m ∧ m.length = fs.listing.length ∧
      m.map Prod.fst = fs.listing := by
  obtain ⟨m, hm, hmap⟩ := collectFrom_ok_of_valid fs.file fs.listing h1 h2
  refine ⟨m, hm, ?_, hmap⟩
  calc m.length = (m.map Prod.fst).length := (List.length_map ..).symm
    _ = fs.listing.length := by rw [hmap]

/-- Witness for C3: two chains, two entries. -/
theorem claim_C3_witness :
    ∃ m, collect fsTwo = .ok m ∧ m.length = fsTwo.listing.length ∧
      m.map Prod.fst = fsTwo.listing :=
  claim_C3 fsTwo (by decide) (by decide)
    (by
      intro c hc
      have : c = chars "1" ∨ c = chars "137" := by
        simpa [fsTwo] using hc
      rcases this with rfl | rfl
      · exact ⟨routerTxt, routerVal, rfl, rfl⟩
      · exact ⟨routerTxt, routerVal, rfl, rfl⟩)

/-- Claim C4: `31337` is never a key of the collected mapping (hence never a
property of the emitted file, whose properties are exactly the mapping's
keys), even when its subdirectory and file exist and are well-formed. -/
theorem claim_C4 (fs : InputFS) (m : List (List Char × Json))
    (hc : collect fs = .ok m) :
    ∀ kv ∈ m, kv.1 ≠ excludedId :=
  fun kv hkv => (collectFrom_mem_spec fs.file fs.listing m hc kv hkv).2.1

/-- Witness for C4: an input tree with a well-formed `31337` directory; the
result holds exactly one entry and it is not `31337`. -/
theorem claim_C4_witness : chars "1" ≠ excludedId :=
  claim_C4 fsWithLocal [(chars "1", routerVal)] rfl
    (chars "1", routerVal) (List.mem_cons_self ..)

/-- Claim C6: the emitted file is the header `export const deployedContracts = \x7b`,
then one property per chain id in the mapping's iteration order — two spaces,
the id, `: `, the record pretty-printed by `json.dumps(·, indent=2)`, and a
trailing comma, each property starting on its own line — and a closing brace. -/
theorem claim_C6 (fs : InputFS) (st : OutputFS) (m : List (List Char × Json))
    (hc : collect fs = .ok m) (hd : st.dirExists = true) :
    (run fs st).outFile = some (
      chars "export const deployedContracts = \x7b\n" ++
      (m.map (fun kv =>
        chars "  " ++ kv.1 ++ chars ": " ++ jsonDumps kv.2 ++ chars ",\n")).flatten ++
      chars "\x7d\n") := by
  simp [run, hc, hd, emitContent]

/-- Witness for C6 at a concrete two-chain input. -/
theorem claim_C6_witness :
    (run fsTwo ⟨true, none⟩).outFile = some (
      chars "export const deployedContracts = \x7b\n" ++
      (mTwo.map (fun kv =>
        chars "  " ++ kv.1 ++ chars ": " ++ jsonDumps kv.2 ++ chars ",\n")).flatten ++
      chars "\x7d\n") :=
  claim_C6 fsTwo ⟨true, none⟩ mTwo rfl rfl

/-- Claim C7: a non-excluded subdirectory whose expected file is missing or
unparseable makes collection fail — with a file-access error for a missing
file or a parse error for invalid JSON — and the exception propagates
uncaught: the run aborts with that error, no entry is recovered or skipped,
and the output path is left untouched. -/
theorem claim_C7 (fs : InputFS) (st : OutputFS) (c : List Char)
    (hmem : c ∈ fs.listing) (hne : c ≠ excludedId)
    (hbad : fs.file c = none ∨ ∃ t, fs.file c = some t ∧ jsonLoads t = none) :
    ∃ e, collect fs = .error e ∧
      ((∃ c', e = .fileAccess c' ∧ fs.file c' = none) ∨
       (∃ c' t, e = .parseFail c' ∧ fs.file c' = some t ∧ jsonLoads t = none)) ∧
      run fs st = ⟨st.dirExists, st.fileContent, some e⟩ := by
  obtain ⟨e, he, hs⟩ := collectFrom_error_of_bad fs.file fs.listing c hmem hne hbad
  exact ⟨e, he, hs, by simp [run, collect, he]⟩

/-- Witness for C7: an invalid per-chain file aborts the run with a parse
error and the pre-existing output file survives. -/
theorem claim_C7_witness :
    run fsInvalid ⟨true, some (chars "OLD")⟩ =
      ⟨true, some (chars "OLD"), some (.parseFail (chars "1"))⟩ := by
  obtain ⟨e, he, _, hrun⟩ := claim_C7 fsInvalid ⟨true, some (chars "OLD")⟩
    (chars "1") (List.mem_cons_self ..) (by decide)
    (Or.inr ⟨chars "not json", rfl, rfl⟩)
  have h2 : Except.error (ε := MergeError) e = .error (.parseFail (chars "1")) :=
    he.symm.trans rfl
  injection h2 with h3
  rw [← h3]
  exact hrun

/-- Claim C8: every key of the collected mapping is a listed subdirectory name
other than `31337`, and its value is exactly what `json.load` returned for
that chain's `deployedCrossLiquid.json`, unmodified. -/
theorem claim_C8 (fs : InputFS) (m : List (List Char × Json))
    (hc : collect fs = .ok m) :
    ∀ kv ∈ m, kv.1 ∈ fs.listing ∧ kv.1 ≠ excludedId ∧
      ∃ t, fs.file kv.1 = some t ∧ jsonLoads t = some kv.2 :=
  fun kv hkv => collectFrom_mem_spec fs.file fs.listing m hc kv hkv

/-- Witness for C8 at a concrete entry. -/
theorem claim_C8_witness :
    chars "1" ∈ fsTwo.listing ∧ chars "1" ≠ excludedId ∧
      ∃ t, fsTwo.file (chars "1") = some t ∧ jsonLoads t = some routerVal :=
  claim_C8 fsTwo mTwo rfl (chars "1", routerVal) (List.mem_cons_self ..)

/-- Claim C9: the excluded chain's file is never opened or read — collection
is unchanged under arbitrary changes to the `31337` entry's file (absent,
unreadable, or invalid), so the run never fails on its account. -/
theorem claim_C9 (L : List (List Char)) (f1 f2 : List Char → Option (List Char))
    (h : ∀ c, c ≠ excludedId → f1 c = f2 c) :
    collect ⟨L, f1⟩ = collect ⟨L, f2⟩ :=
  collectFrom_congr f1 f2 L (fun c _ hc => h c hc)

/-- Witness for C9: a listed `31337` directory with a missing file versus one
with garbage contents — collection succeeds identically. -/
theorem claim_C9_witness :
    collect ⟨[chars "31337", chars "1"], fileNoLocal⟩ =
      collect ⟨[chars "31337", chars "1"], fileBadLocal⟩ :=
  claim_C9 [chars "31337", chars "1"] fileNoLocal fileBadLocal
    (by
      intro c hc
      by_cases h1 : c = chars "1"
      · simp [fileNoLocal, fileBadLocal, h1]
      · simp [fileNoLocal, fileBadLocal, h1, hc])

/-- Claim C10: the pass is deterministic — two runs seeing the same directory
enumeration (same names, same order) and the same per-chain file contents
produce byte-for-byte identical outcomes, whatever else differs on disk. -/
theorem claim_C10 (fs1 fs2 : InputFS) (st : OutputFS)
    (hL : fs1.listing = fs2.listing)
    (hf : ∀ c ∈ fs1.listing, c ≠ excludedId → fs1.file c = fs2.file c) :
    run fs1 st = run fs2 st := by
  have hcol : collect fs1 = collect fs2 := by
    unfold collect
    rw [hL]
    exact collectFrom_congr fs1.file fs2.file fs2.listing
      (fun c hc hne => hf c (hL ▸ hc) hne)
  simp only [run, hcol]

/-- Witness for C10: the same listing and per-chain files over two disks that
differ everywhere else give identical run results. -/
theorem claim_C10_witness : run fsTwo ⟨true, none⟩ = run fsTwoJunk ⟨true, none⟩ :=
  claim_C10 fsTwo fsTwoJunk ⟨true, none⟩ rfl
    (by
      intro c hc _
      have : c = chars "1" ∨ c = chars "137" := by
        simpa [fsTwo] using hc
      rcases this with rfl | rfl
      · rfl
      · rfl)

/-- The scalar value of a `Char` is below `0x110000` and not a surrogate. -/
theorem char_toNat_valid (c : Char) :
    c.toNat < 0xd800 ∨ (0xdfff < c.toNat ∧ c.toNat < 0x110000) := c.valid

/-- A hex digit printed by the escaper parses back to itself. -/
theorem parseHexDigit_hexDigitChar {d : Nat} (h : d < 16) :
    parseHexDigit (hexDigitChar d) = some d := by
  interval_cases d <;> decide

/-- Four hex digits printed by the escaper parse back to the escaped value. -/
theorem parseHex4_fourHex {n : Nat} (h : n < 65536) :
    parseHex4 (hexDigitChar (n / 4096 % 16)) (hexDigitChar (n / 256 % 16))
      (hexDigitChar (n / 16 % 16)) (hexDigitChar (n % 16)) = some n := by
  rw [parseHex4,
    parseHexDigit_hexDigitChar (Nat.mod_lt _ (by norm_num)),
    parseHexDigit_hexDigitChar (Nat.mod_lt _ (by norm_num)),
    parseHexDigit_hexDigitChar (Nat.mod_lt _ (by norm_num)),
    parseHexDigit_hexDigitChar (Nat.mod_lt _ (by norm_num))]
  simp only [Option.some.injEq]
  omega

/-- Skipping whitespace ignores leading spaces. -/
theorem skipWs_replicate (k : Nat) (s : List Char) :
    skipWs (List.replicate k ' ' ++ s) = skipWs s := by
  induction k with
  | zero => rfl
  | succ k ih => simpa [skipWs, isJsonWs] using ih

/-- Skipping whitespace ignores leading indentation. -/
theorem skipWs_ind (k : Nat) (s : List Char) : skipWs (ind k ++ s) = skipWs s :=
  skipWs_replicate (2 * k) s

/-- Skipping whitespace ignores a leading newline. -/
theorem skipWs_newline (s : List Char) : skipWs ('\n' :: s) = skipWs s := by
  simp [skipWs, isJsonWs]

/-- Whitespace skipping stops at a non-whitespace character. -/
theorem skipWs_cons_not {c : Char} (s : List Char) (h : isJsonWs c = false) :
    skipWs (c :: s) = c :: s := by
  simp [skipWs, h]

/-- Step: closing quote ends the string body. -/
theorem psb_quote (f : Nat) (r : List Char) :
    parseStringBody (f + 1) ('\"' :: r) = some ([], r) := rfl

/-- Step: escaped quote. -/
theorem psb_esc_quote (f : Nat) (r : List Char) :
    parseStringBody (f + 1) ('\\' :: '\"' :: r) =
      (parseStringBody f r).map (fun p => ('\"' :: p.1, p.2)) := rfl

/-- Step: escaped backslash. -/
theorem psb_esc_back (f : Nat) (r : List Char) :
    parseStringBody (f + 1) ('\\' :: '\\' :: r) =
      (parseStringBody f r).map (fun p => ('\\' :: p.1, p.2)) := rfl

/-- Step: escaped backspace. -/
theorem psb_esc_b (f : Nat) (r : List Char) :
    parseStringBody (f + 1) ('\\' :: 'b' :: r) =
      (parseStringBody f r).map (fun p => (Char.ofNat 8 :: p.1, p.2)) := rfl

/-- Step: escaped form feed. -/
theorem psb_esc_f (f : Nat) (r : List Char) :
    parseStringBody (f + 1) ('\\' :: 'f' :: r) =
      (parseStringBody f r).map (fun p => (Char.ofNat 12 :: p.1, p.2)) := rfl

/-- Step: escaped newline. -/
theorem psb_esc_n (f : Nat) (r : List Char) :
    parseStringBody (f + 1) ('\\' :: 'n' :: r) =
      (parseStringBody f r).map (fun p => ('\n' :: p.1, p.2)) := rfl

/-- Step: escaped carriage return. -/
theorem psb_esc_r (f : Nat) (r : List Char) :
    parseStringBody (f + 1) ('\\' :: 'r' :: r) =
      (parseStringBody f r).map (fun p => ('\r' :: p.1, p.2)) := rfl

/-- Step: escaped tab. -/
theorem psb_esc_t (f : Nat) (r : List Char) :
    parseStringBody (f + 1) ('\\' :: 't' :: r) =
      (parseStringBody f r).map (fun p => ('\t' :: p.1, p.2)) := rfl

/-- Step: a `\uXXXX` escape, before resolving the hex digits. -/
theorem psb_esc_u (f : Nat) (a b c d : Char) (r : List Char) :
    parseStringBody (f + 1) ('\\' :: 'u' :: a :: b :: c :: d :: r) =
      (match parseHex4 a b c d with
       | none => none
       | some n =>
         if n < 0xd800 ∨ 0xe000 ≤ n then
           (parseStringBody f r).map (fun p => (Char.ofNat n :: p.1, p.2))
         else if n < 0xdc00 then
           match r with
           | b1 :: u1 :: g1 :: g2 :: g3 :: g4 :: cs3 =>
             if b1 = '\\' ∧ u1 = 'u' then
               match parseHex4 g1 g2 g3 g4 with
               | some m =>
                 if 0xdc00 ≤ m ∧ m < 0xe000 then
                   (parseStringBody f cs3).map
                     (fun p =>
                       (Char.ofNat (0x10000 + (n - 0xd800) * 0x400 + (m - 0xdc00))
                         :: p.1, p.2))
                 else none
               | none => none
             else none
           | _ => none
         else none) := rfl

/-- Step: an ordinary character inside a string body. -/
theorem psb_plain {c : Char} (f : Nat) (r : List Char) (h1 : ¬c = '\"')
    (h2 : ¬c = '\\') (h3 : ¬c.toNat < 0x20) :
    parseStringBody (f + 1) (c :: r) =
      (parseStringBody f r).map (fun p => (c :: p.1, p.2)) := by
  conv_lhs => rw [parseStringBody.eq_def]
  simp only []
  rw [if_neg h1, if_neg h2, if_neg h3]

/-- A resolved non-surrogate `\uXXXX` escape decodes to its code point. -/
theorem psb_u_single {a b c d : Char} {n : Nat} (f : Nat) (r : List Char)
    (hhex : parseHex4 a b c d = some n) (hval : n < 0xd800 ∨ 0xe000 ≤ n) :
    parseStringBody (f + 1) ('\\' :: 'u' :: a :: b :: c :: d :: r) =
      (parseStringBody f r).map (fun p => (Char.ofNat n :: p.1, p.2)) := by
  rw [psb_esc_u, hhex]
  simp [hval]

/-- A resolved surrogate pair decodes to the combined code point. -/
theorem psb_u_pair {a b c d g1 g2 g3 g4 : Char} {n m : Nat} (f : Nat) (r : List Char)
    (hhex1 : parseHex4 a b c d = some n) (hn1 : 0xd800 ≤ n) (hn2 : n < 0xdc00)
    (hhex2 : parseHex4 g1 g2 g3 g4 = some m) (hm1 : 0xdc00 ≤ m) (hm2 : m < 0xe000) :
    parseStringBody (f + 1)
        ('\\' :: 'u' :: a :: b :: c :: d :: '\\' :: 'u' :: g1 :: g2 :: g3 :: g4 :: r) =
      (parseStringBody f r).map
        (fun p => (Char.ofNat (0x10000 + (n - 0xd800) * 0x400 + (m - 0xdc00)) :: p.1, p.2)) := by
  rw [psb_esc_u, hhex1]
  have hv : ¬(n < 0xd800 ∨ 0xe000 ≤ n) := by omega
  simp [hv, hn2, hhex2, hm1, hm2]

/-- The escaped body of a dumped string literal parses back to the original
string, consuming through the closing quote. -/
theorem parseStringBody_escape :
    ∀ (s : List Char) (fuel : Nat) (rest : List Char),
      (escapeString s).length < fuel →
      parseStringBody fuel (escapeString s ++ '\"' :: rest) = some (s, rest) := by
  intro s
  induction s with
  | nil =>
    intro fuel rest hf
    simp only [escapeString, List.flatMap_nil, List.nil_append]
    obtain ⟨f, rfl⟩ : ∃ f, fuel = f + 1 := by
      cases fuel
      · exact absurd hf (by simp)
      · exact ⟨_, rfl⟩
    exact psb_quote f rest
  | cons c s ih =>
    intro fuel rest hf
    have hflat : escapeString (c :: s) = escapeChar c ++ escapeString s := by
      simp [escapeString]
    rw [hflat] at hf ⊢
    rw [List.append_assoc]
    obtain ⟨f, rfl⟩ : ∃ f, fuel = f + 1 := by
      cases fuel
      · exact absurd hf (by simp)
      · exact ⟨_, rfl⟩
    have hlen : (escapeChar c).length + (escapeString s).length < f + 1 := by
      rw [List.length_append] at hf
      exact hf
    by_cases h1 : c = '\"'
    · subst h1
      rw [show escapeChar '\"' = ['\\', '\"'] from rfl] at hlen ⊢
      rw [List.cons_append, List.cons_append, List.nil_append, psb_esc_quote,
        ih f rest (by simp at hlen; omega)]
      rfl
    by_cases h2 : c = '\\'
    · subst h2
      rw [show escapeChar '\\' = ['\\', '\\'] from rfl] at hlen ⊢
      rw [List.cons_append, List.cons_append, List.nil_append, psb_esc_back,
        ih f rest (by simp at hlen; omega)]
      rfl
    by_cases h3 : c = Char.ofNat 8
    · subst h3
      rw [show escapeChar (Char.ofNat 8) = ['\\', 'b'] from rfl] at hlen ⊢
      rw [List.cons_append, List.cons_append, List.nil_append, psb_esc_b,
        ih f rest (by simp at hlen; omega)]
      rfl
    by_cases h4 : c = Char.ofNat 12
    · subst h4
      rw [show escapeChar (Char.ofNat 12) = ['\\', 'f'] from rfl] at hlen ⊢
      rw [List.cons_append, List.cons_append, List.nil_append, psb_esc_f,
        ih f rest (by simp at hlen; omega)]
      rfl
    by_cases h5 : c = '\n'
    · subst h5
      rw [show escapeChar '\n' = ['\\', 'n'] from rfl] at hlen ⊢
      rw [List.cons_append, List.cons_append, List.nil_append, psb_esc_n,
        ih f rest (by simp at hlen; omega)]
      rfl
    by_cases h6 : c = '\r'
    · subst h6
      rw [show escapeChar '\r' = ['\\', 'r'] from rfl] at hlen ⊢
      rw [List.cons_append, List.cons_append, List.nil_append, psb_esc_r,
        ih f rest (by simp at hlen; omega)]
      rfl
    by_cases h7 : c = '\t'
    · subst h7
      rw [show escapeChar '\t' = ['\\', 't'] from rfl] at hlen ⊢
      rw [List.cons_append, List.cons_append, List.nil_append, psb_esc_t,
        ih f rest (by simp at hlen; omega)]
      rfl
    by_cases h8 : c.toNat < 0x20 ∨ (0x7f ≤ c.toNat ∧ c.toNat < 0x10000)
    · have hlt : c.toNat < 65536 := by omega
      have hval : c.toNat < 0xd800 ∨ 0xe000 ≤ c.toNat := by
        rcases char_toNat_valid c with h | ⟨h, _⟩
        · exact Or.inl h
        · exact Or.inr (by omega)
      have hesc : escapeChar c = '\\' :: 'u' :: fourHex c.toNat := by
        rw [escapeChar, if_neg h1, if_neg h2, if_neg h3, if_neg h4, if_neg h5,
          if_neg h6, if_neg h7, if_pos h8]
      rw [hesc] at hlen ⊢
      rw [fourHex] at hlen ⊢
      simp only [List.cons_append, List.nil_append]
      rw [psb_u_single f _ (parseHex4_fourHex hlt) hval,
        ih f rest (by simp at hlen ⊢; omega), Char.ofNat_toNat]
      rfl
    by_cases h9 : 0x10000 ≤ c.toNat
    · have hub : c.toNat < 0x110000 := by
        rcases char_toNat_valid c with h | ⟨_, h⟩ <;> omega
      have hesc : escapeChar c =
          '\\' :: 'u' :: fourHex (0xd800 + (c.toNat - 0x10000) / 0x400) ++
            '\\' :: 'u' :: fourHex (0xdc00 + (c.toNat - 0x10000) % 0x400) := by
        rw [escapeChar, if_neg h1, if_neg h2, if_neg h3, if_neg h4, if_neg h5,
          if_neg h6, if_neg h7, if_neg h8, if_pos h9]
      have hhi : 0xd800 + (c.toNat - 0x10000) / 0x400 < 65536 := by omega
      have hlo : 0xdc00 + (c.toNat - 0x10000) % 0x400 < 65536 := by
        have := Nat.mod_lt (c.toNat - 0x10000) (y := 0x400) (by norm_num)
        omega
      rw [hesc] at hlen ⊢
      rw [fourHex, fourHex] at hlen ⊢
      simp only [List.cons_append, List.nil_append, List.append_assoc] at hlen ⊢
      rw [psb_u_pair f _ (parseHex4_fourHex hhi) (by omega) (by omega)
        (parseHex4_fourHex hlo) (by omega)
        (by
          have := Nat.mod_lt (c.toNat - 0x10000) (y := 0x400) (by norm_num)
          omega)]
      have hcomb : 0x10000 +
          (0xd800 + (c.toNat - 0x10000) / 0x400 - 0xd800) * 0x400 +
          (0xdc00 + (c.toNat - 0x10000) % 0x400 - 0xdc00) = c.toNat := by
        omega
      rw [hcomb, ih f rest (by simp at hlen ⊢; omega), Char.ofNat_toNat]
      rfl
    · have hesc : escapeChar c = [c] := by
        rw [escapeChar, if_neg h1, if_neg h2, if_neg h3, if_neg h4, if_neg h5,
          if_neg h6, if_neg h7, if_neg h8, if_neg h9]
      rw [hesc] at hlen ⊢
      rw [List.cons_append, List.nil_append,
        psb_plain f _ h1 h2 (by omega), ih f rest (by simp at hlen; omega)]
      rfl

/-- Packing a small scalar value keeps its numeric value. -/
theorem toNat_ofNat_small {n : Nat} (h : n < 0xd800) : (Char.ofNat n).toNat = n := by
  rw [Char.ofNat, dif_pos (Or.inl h)]
  rfl

/-- Digit test in terms of the scalar value. -/
theorem isDigit_iff_toNat (c : Char) : c.isDigit = true ↔ 48 ≤ c.toNat ∧ c.toNat ≤ 57 := by
  simp [Char.isDigit, UInt32.le_def, Char.toNat, BitVec.le_def]
  exact Iff.rfl

/-- The digit scanner does not start on a number-stopping continuation. -/
theorem takeDigits_stop {rest : List Char} (a : Nat) (h : numStop rest = true) :
    takeDigits a rest = (a, rest) := by
  cases rest with
  | nil => rfl
  | cons c t =>
    simp only [numStop, Bool.not_eq_eq_eq_not, Bool.not_true, Bool.or_eq_false_iff,
      decide_eq_false_iff_not] at h
    rw [takeDigits, if_neg (by simp [h.1.1.1])]

/-- Scanning digits through a digit prefix continues into the remainder with
the accumulated value. -/
theorem takeDigits_split : ∀ (ds : List Char) (acc : Nat) (rest : List Char),
    (∀ c ∈ ds, c.isDigit = true) →
    takeDigits acc (ds ++ rest) = takeDigits (takeDigits acc ds).1 rest := by
  intro ds
  induction ds with
  | nil => intro acc rest _; rfl
  | cons d ds ih =>
    intro acc rest h
    have hd := h d (List.mem_cons_self ..)
    rw [List.cons_append,
      show takeDigits acc (d :: (ds ++ rest)) =
        if d.isDigit then takeDigits (acc * 10 + digitVal d) (ds ++ rest)
        else (acc, d :: (ds ++ rest)) from rfl,
      if_pos hd, ih _ rest (fun c hc => h c (List.mem_cons_of_mem _ hc)),
      show takeDigits acc (d :: ds) =
        if d.isDigit then takeDigits (acc * 10 + digitVal d) ds
        else (acc, d :: ds) from rfl,
      if_pos hd]

/-- Every character the decimal printer emits is a digit. -/
theorem natToDigitsAux_digits : ∀ (fuel n : Nat), ∀ c ∈ natToDigitsAux fuel n,
    c.isDigit = true := by
  intro fuel
  induction fuel with
  | zero => intro n c hc; simp [natToDigitsAux] at hc
  | succ f ih =>
    intro n c hc
    rw [natToDigitsAux] at hc
    by_cases h : n < 10
    · rw [if_pos h] at hc
      simp only [List.mem_singleton] at hc
      subst hc
      rw [isDigit_iff_toNat, toNat_ofNat_small (by omega)]
      omega
    · rw [if_neg h] at hc
      rcases List.mem_append.mp hc with h1 | h1
      · exact ih _ c h1
      · simp only [List.mem_singleton] at h1
        subst h1
        have := Nat.mod_lt n (y := 10) (by norm_num)
        rw [isDigit_iff_toNat, toNat_ofNat_small (by omega)]
        omega

/-- With enough fuel the printed digits are non-empty and, for a nonzero
value, have no leading zero. -/
theorem natToDigitsAux_cons : ∀ (fuel n : Nat), n < 10 ^ (fuel + 1) →
    ∃ d ds, natToDigitsAux (fuel + 1) n = d :: ds ∧ (n ≠ 0 → ¬d = '0') := by
  intro fuel
  induction fuel with
  | zero =>
    intro n hb
    have h : n < 10 := by simpa using hb
    refine ⟨Char.ofNat (48 + n), [], by rw [natToDigitsAux, if_pos h], ?_⟩
    intro hn h0
    have := congrArg Char.toNat h0
    rw [toNat_ofNat_small (by omega)] at this
    have h48 : ('0' : Char).toNat = 48 := rfl
    omega
  | succ f ih =>
    intro n hb
    by_cases h : n < 10
    · refine ⟨Char.ofNat (48 + n), [], by rw [natToDigitsAux, if_pos h], ?_⟩
      intro hn h0
      have := congrArg Char.toNat h0
      rw [toNat_ofNat_small (by omega)] at this
      have h48 : ('0' : Char).toNat = 48 := rfl
      omega
    · have hq : n / 10 < 10 ^ (f + 1) := by
        rw [pow_succ, Nat.mul_comm] at hb
        exact Nat.div_lt_of_lt_mul hb
      obtain ⟨d, ds, hds, hd0⟩ := ih (n / 10) hq
      refine ⟨d, ds ++ [Char.ofNat (48 + n % 10)], ?_, ?_⟩
      · rw [natToDigitsAux, if_neg h, hds, List.cons_append]
      · intro _ h0
        exact hd0 (by omega) h0

/-- Scanning the printed digits of `n` onto accumulator `acc` yields
`acc` shifted by the digit count, plus `n`. -/
theorem takeDigits_natToDigitsAux : ∀ (fuel n acc : Nat), n < 10 ^ (fuel + 1) →
    takeDigits acc (natToDigitsAux (fuel + 1) n) =
      (acc * 10 ^ (natToDigitsAux (fuel + 1) n).length + n, []) := by
  intro fuel
  induction fuel with
  | zero =>
    intro n acc hb
    have h : n < 10 := by simpa using hb
    rw [natToDigitsAux, if_pos h]
    have hdig : (Char.ofNat (48 + n)).isDigit = true := by
      rw [isDigit_iff_toNat, toNat_ofNat_small (by omega)]; omega
    rw [show takeDigits acc [Char.ofNat (48 + n)] =
        if (Char.ofNat (48 + n)).isDigit then
          takeDigits (acc * 10 + digitVal (Char.ofNat (48 + n))) []
        else (acc, [Char.ofNat (48 + n)]) from rfl,
      if_pos hdig]
    have hv : digitVal (Char.ofNat (48 + n)) = n := by
      rw [digitVal, toNat_ofNat_small (by omega)]
      omega
    simp [takeDigits, hv]
  | succ f ih =>
    intro n acc hb
    by_cases h : n < 10
    · rw [natToDigitsAux, if_pos h]
      have hdig : (Char.ofNat (48 + n)).isDigit = true := by
        rw [isDigit_iff_toNat, toNat_ofNat_small (by omega)]; omega
      rw [show takeDigits acc [Char.ofNat (48 + n)] =
          if (Char.ofNat (48 + n)).isDigit then
            takeDigits (acc * 10 + digitVal (Char.ofNat (48 + n))) []
          else (acc, [Char.ofNat (48 + n)]) from rfl,
        if_pos hdig]
      have hv : digitVal (Char.ofNat (48 + n)) = n := by
        rw [digitVal, toNat_ofNat_small (by omega)]
        omega
      simp [takeDigits, hv]
    · have hq : n / 10 < 10 ^ (f + 1) := by
        rw [pow_succ, Nat.mul_comm] at hb
        exact Nat.div_lt_of_lt_mul hb
      rw [natToDigitsAux, if_neg h,
        takeDigits_split _ _ _ (natToDigitsAux_digits (f + 1) (n / 10)),
        ih (n / 10) acc hq]
      have hdig : (Char.ofNat (48 + n % 10)).isDigit = true := by
        have := Nat.mod_lt n (y := 10) (by norm_num)
        rw [isDigit_iff_toNat, toNat_ofNat_small (by omega)]
        omega
      have hv : digitVal (Char.ofNat (48 + n % 10)) = n % 10 := by
        have := Nat.mod_lt n (y := 10) (by norm_num)
        rw [digitVal, toNat_ofNat_small (by omega)]
        omega
      rw [show ((acc * 10 ^ (natToDigitsAux (f + 1) (n / 10)).length + n / 10, ([] : List Char)) : Nat × List Char).1 = acc * 10 ^ (natToDigitsAux (f + 1) (n / 10)).length + n / 10 from rfl]
      rw [show takeDigits (acc * 10 ^ (natToDigitsAux (f + 1) (n / 10)).length + n / 10) [Char.ofNat (48 + n % 10)] =
          if (Char.ofNat (48 + n % 10)).isDigit then
            takeDigits ((acc * 10 ^ (natToDigitsAux (f + 1) (n / 10)).length + n / 10) * 10 + digitVal (Char.ofNat (48 + n % 10))) []
          else ((acc * 10 ^ (natToDigitsAux (f + 1) (n / 10)).length + n / 10), [Char.ofNat (48 + n % 10)]) from rfl,
        if_pos hdig]
      rw [show ∀ a : Nat, takeDigits a [] = (a, []) from fun a => rfl]
      rw [hv]
      rw [List.length_append, List.length_singleton]
      congr 1
      have h1 : (acc * 10 ^ (natToDigitsAux (f + 1) (n / 10)).length + n / 10) * 10 + n % 10 =
          acc * (10 ^ (natToDigitsAux (f + 1) (n / 10)).length * 10) + (10 * (n / 10) + n % 10) := by
        ring
      rw [h1, Nat.div_add_mod, ← pow_succ]

/-- The printed decimal of `n` parses back to `n` under the unsigned grammar. -/
theorem parseUNum_natToDigits (n : Nat) (rest : List Char) (h : numStop rest = true) :
    parseUNum (natToDigits n ++ rest) = some (n, rest) := by
  by_cases h0 : n = 0
  · subst h0
    rw [show natToDigits 0 = ['0'] from rfl]
    rfl
  · have hb : n < 10 ^ (n + 1) :=
      lt_trans (Nat.lt_pow_self (by norm_num) n) (Nat.pow_lt_pow_succ (by norm_num))
    obtain ⟨d, ds, hds, hd0⟩ := natToDigitsAux_cons n n hb
    have hd0' := hd0 h0
    have hmem : ∀ c ∈ d :: ds, c.isDigit = true := by
      rw [← hds]; exact natToDigitsAux_digits (n + 1) n
    have hddig : d.isDigit = true := hmem d (List.mem_cons_self ..)
    have hdsdig : ∀ c ∈ ds, c.isDigit = true :=
      fun c hc => hmem c (List.mem_cons_of_mem _ hc)
    rw [natToDigits, hds, List.cons_append,
      show parseUNum (d :: (ds ++ rest)) =
        if d = '0' then some (0, ds ++ rest)
        else if d.isDigit then some (takeDigits (digitVal d) (ds ++ rest))
        else none from rfl,
      if_neg hd0', if_pos hddig,
      takeDigits_split ds (digitVal d) rest hdsdig]
    have hval := takeDigits_natToDigitsAux n n 0 hb
    rw [hds,
      show takeDigits 0 (d :: ds) =
        if d.isDigit then takeDigits (0 * 10 + digitVal d) ds
        else (0, d :: ds) from rfl,
      if_pos hddig] at hval
    norm_num at hval
    rw [hval]
    norm_num
    exact takeDigits_stop n h

/-- Step: a number starting with `-`. -/
theorem parseNumber_neg (t : List Char) :
    parseNumber ('-' :: t) =
      (match parseUNum t with
       | none => none
       | some (n, r) =>
         match r with
         | c :: _ => if c = '.' ∨ c = 'e' ∨ c = 'E' then none else some (-(n : Int), r)
         | [] => some (-(n : Int), [])) := rfl

/-- Step: a number not starting with `-`. -/
theorem parseNumber_pos {c : Char} (t : List Char) (h : ¬c = '-') :
    parseNumber (c :: t) =
      (match parseUNum (c :: t) with
       | none => none
       | some (n, r) =>
         match r with
         | c2 :: _ => if c2 = '.' ∨ c2 = 'e' ∨ c2 = 'E' then none else some ((n : Int), r)
         | [] => some ((n : Int), [])) := by
  rw [parseNumber.eq_def]
  split
  · next heq =>
    rw [List.cons.injEq] at heq
    exact absurd heq.1 h
  · rfl

/-- A continuation passing `numStop` does not hand the parse to the float
grammar. -/
theorem numStop_cons {c : Char} {t : List Char} (h : numStop (c :: t) = true) :
    ¬(c = '.' ∨ c = 'e' ∨ c = 'E') := by
  intro hor
  rcases hor with h1 | h1 | h1 <;> subst h1 <;> simp [numStop] at h

/-- The printed decimal of an integer parses back to it. -/
theorem parseNumber_intToChars (i : Int) (rest : List Char) (h : numStop rest = true) :
    parseNumber (intToChars i ++ rest) = some (i, rest) := by
  by_cases hneg : i < 0
  · rw [intToChars, if_pos hneg, List.cons_append, parseNumber_neg,
      parseUNum_natToDigits i.natAbs rest h]
    cases rest with
    | nil =>
      show some (-(i.natAbs : Int), ([] : List Char)) = some (i, ([] : List Char))
      congr 1
      rw [Prod.mk.injEq]
      exact ⟨by omega, rfl⟩
    | cons c2 t2 =>
      show (if c2 = '.' ∨ c2 = 'e' ∨ c2 = 'E' then none
        else some (-(i.natAbs : Int), c2 :: t2)) = some (i, c2 :: t2)
      rw [if_neg (numStop_cons h)]
      congr 1
      rw [Prod.mk.injEq]
      exact ⟨by omega, rfl⟩
  · rw [intToChars, if_neg hneg]
    obtain ⟨d, ds, hds, _⟩ := natToDigitsAux_cons i.toNat i.toNat
      (lt_trans (Nat.lt_pow_self (by norm_num) _) (Nat.pow_lt_pow_succ (by norm_num)))
    have hP := parseUNum_natToDigits i.toNat rest h
    unfold natToDigits at hP
    rw [hds, List.cons_append] at hP
    unfold natToDigits
    rw [hds, List.cons_append]
    have hddig : d.isDigit = true :=
      natToDigitsAux_digits (i.toNat + 1) i.toNat d (by rw [hds]; exact List.mem_cons_self ..)
    have hdne : ¬d = '-' := by
      intro h45
      rw [isDigit_iff_toNat] at hddig
      have := congrArg Char.toNat h45
      have h45' : ('-' : Char).toNat = 45 := rfl
      omega
    rw [parseNumber_pos _ hdne, hP]
    cases rest with
    | nil =>
      show some ((i.toNat : Int), ([] : List Char)) = some (i, ([] : List Char))
      congr 1
      rw [Prod.mk.injEq]
      exact ⟨by omega, rfl⟩
    | cons c2 t2 =>
      show (if c2 = '.' ∨ c2 = 'e' ∨ c2 = 'E' then none
        else some ((i.toNat : Int), c2 :: t2)) = some (i, c2 :: t2)
      rw [if_neg (numStop_cons h)]
      congr 1
      rw [Prod.mk.injEq]
      exact ⟨by omega, rfl⟩

/-- Characters with different scalar values differ. -/
theorem char_ne_of_toNat_ne {a b : Char} (h : ¬a.toNat = b.toNat) : ¬a = b :=
  fun he => h (congrArg Char.toNat he)

/-- A digit is not any character outside the digit range. -/
theorem digit_ne {c : Char} (h : c.isDigit = true) {d : Char}
    (hd : 57 < d.toNat ∨ d.toNat < 48) : ¬c = d := by
  intro he
  subst he
  rw [isDigit_iff_toNat] at h
  omega

/-- A digit is not JSON whitespace. -/
theorem digit_not_ws {c : Char} (h : c.isDigit = true) : isJsonWs c = false := by
  simp only [isJsonWs, Bool.or_eq_false_iff, decide_eq_false_iff_not]
  exact ⟨⟨⟨digit_ne h (by decide), digit_ne h (by decide)⟩,
    digit_ne h (by decide)⟩, digit_ne h (by decide)⟩

/-- Appending the empty member list is the identity. -/
theorem appendMembers_nil : ∀ a : JsonMembers, appendMembers a .nil = a
  | .nil => rfl
  | .cons _ _ t => by rw [appendMembers, appendMembers_nil t]

/-- Looking a key up after a Python-dict insertion finds the old keys and the
new one. -/
theorem hasKey_insertKV : ∀ (acc : JsonMembers) (k : List Char) (v : Json)
    (key : List Char),
    hasKey (insertKV acc k v) key = (hasKey acc key || decide (k = key))
  | .nil, k, v, key => by simp [insertKV, hasKey]
  | .cons k' v' t, k, v, key => by
    by_cases h : k' = k
    · subst h
      rw [insertKV, if_pos rfl]
      simp [hasKey, Bool.or_assoc, Bool.or_comm, Bool.or_left_comm]
    · rw [insertKV, if_neg h]
      simp [hasKey, hasKey_insertKV t k v key, Bool.or_assoc]

/-- Inserting a fresh key appends it at the end. -/
theorem insertKV_fresh : ∀ (acc : JsonMembers) (k : List Char) (v : Json),
    hasKey acc k = false →
    insertKV acc k v = appendMembers acc (.cons k v .nil)
  | .nil, k, v, _ => rfl
  | .cons k' v' t, k, v, h => by
    simp only [hasKey, Bool.or_eq_false_iff, decide_eq_false_iff_not] at h
    rw [insertKV, if_neg (fun he => h.1 he), appendMembers, insertKV_fresh t k v h.2]

/-- Concatenating member lists is associative. -/
theorem appendMembers_assoc : ∀ (a b c : JsonMembers),
    appendMembers (appendMembers a b) c = appendMembers a (appendMembers b c)
  | .nil, _, _ => rfl
  | .cons k v t, b, c => by
    rw [appendMembers, appendMembers, appendMembers, appendMembers_assoc t b c]

/-- Member-list lookup distributes over concatenation. -/
theorem hasKey_appendMembers : ∀ (a b : JsonMembers) (key : List Char),
    hasKey (appendMembers a b) key = (hasKey a key || hasKey b key)
  | .nil, b, key => by simp [appendMembers, hasKey]
  | .cons k v t, b, key => by
    simp [appendMembers, hasKey, hasKey_appendMembers t b key, Bool.or_assoc]

/-- Folding distinct-keyed members into an accumulator they are fresh for just
concatenates them. -/
theorem buildObj_fresh : ∀ (ms acc : JsonMembers), wfMembers ms = true →
    (∀ key, hasKey ms key = true → hasKey acc key = false) →
    buildObj acc ms = appendMembers acc ms
  | .nil, acc, _, _ => by rw [buildObj, appendMembers_nil]
  | .cons k v t, acc, hwf, hfresh => by
    simp only [wfMembers, Bool.and_eq_true, Bool.not_eq_eq_eq_not, Bool.not_true] at hwf
    have hk : hasKey acc k = false := hfresh k (by simp [hasKey])
    rw [buildObj, buildObj_fresh t (insertKV acc k v) hwf.2 ?fresh,
      insertKV_fresh acc k v hk, appendMembers_assoc]
    · rfl
    case fresh =>
      intro key hkey
      rw [hasKey_insertKV]
      have h1 : hasKey acc key = false := hfresh key (by simp [hasKey, hkey])
      have h2 : ¬k = key := by
        intro he
        subst he
        rw [hwf.1.1] at hkey
        cases hkey
      simp [h1, h2]

/-- Building the dict from a distinct-keyed member list returns it unchanged. -/
theorem buildObj_wf (ms : JsonMembers) (hwf : wfMembers ms = true) :
    buildObj .nil ms = ms := by
  rw [buildObj_fresh ms .nil hwf (fun key _ => rfl)]
  rfl

/-- Distinct keys with well-formed values give well-formed values. -/
theorem wfVals_of_wfMembers : ∀ ms : JsonMembers, wfMembers ms = true →
    wfVals ms = true
  | .nil, _ => rfl
  | .cons k v t, h => by
    simp only [wfMembers, Bool.and_eq_true] at h
    simp [wfVals, h.1.2, wfVals_of_wfMembers t h.2]

/-- Every serialized value starts with a non-whitespace character that is not
a closing bracket or brace. -/
theorem dumpsVal_head (lvl : Nat) (v : Json) :
    ∃ c t, dumpsVal lvl v = c :: t ∧ isJsonWs c = false ∧ ¬c = ']' ∧ ¬c = '\x7d' := by
  cases v with
  | null => exact ⟨'n', _, rfl, by decide⟩
  | bool b =>
    refine b.rec ⟨'f', _, rfl, by decide⟩ ⟨'t', _, rfl, by decide⟩
  | num i =>
    by_cases hneg : i < 0
    · refine ⟨'-', natToDigits i.natAbs, ?_, by decide⟩
      rw [show dumpsVal lvl (.num i) = intToChars i from rfl, intToChars, if_pos hneg]
    · obtain ⟨d, ds, hds, _⟩ := natToDigitsAux_cons i.toNat i.toNat
        (lt_trans (Nat.lt_pow_self (by norm_num) _) (Nat.pow_lt_pow_succ (by norm_num)))
      have hdig : d.isDigit = true :=
        natToDigitsAux_digits _ _ d (by rw [hds]; exact List.mem_cons_self ..)
      refine ⟨d, ds, ?_, digit_not_ws hdig, digit_ne hdig (by decide),
        digit_ne hdig (Or.inl (by decide))⟩
      rw [show dumpsVal lvl (.num i) = intToChars i from rfl, intToChars, if_neg hneg]
      unfold natToDigits
      exact hds
  | str s => exact ⟨'\"', _, rfl, by decide⟩
  | arr xs =>
    cases xs with
    | nil => exact ⟨'[', _, rfl, by decide⟩
    | cons x xs' => exact ⟨'[', _, rfl, by decide⟩
  | obj kvs =>
    cases kvs with
    | nil => exact ⟨'\x7b', _, rfl, by decide⟩
    | cons k v kvs' => exact ⟨'\x7b', _, rfl, by decide⟩

/-- Step: parsing `null`. -/
theorem pv_null (f : Nat) (r : List Char) :
    parseValue (f + 1) ('n' :: 'u' :: 'l' :: 'l' :: r) = some (.null, r) := rfl

/-- Step: parsing `true`. -/
theorem pv_true (f : Nat) (r : List Char) :
    parseValue (f + 1) ('t' :: 'r' :: 'u' :: 'e' :: r) = some (.bool true, r) := rfl

/-- Step: parsing `false`. -/
theorem pv_false (f : Nat) (r : List Char) :
    parseValue (f + 1) ('f' :: 'a' :: 'l' :: 's' :: 'e' :: r) = some (.bool false, r) := rfl

/-- Step: an opening quote hands off to the string scanner. -/
theorem pv_str (f : Nat) (r : List Char) :
    parseValue (f + 1) ('\"' :: r) =
      (parseStringBody (r.length + 1) r).map (fun p => (Json.str p.1, p.2)) := rfl

/-- Step: an opening bracket dispatches on the next token. -/
theorem pv_arr (f : Nat) (r : List Char) :
    parseValue (f + 1) ('[' :: r) =
      (match skipWs r with
       | ']' :: r2 => some (Json.arr .nil, r2)
       | r1 => (parseItems f r1).map (fun p => (Json.arr p.1, p.2))) := rfl

/-- Step: an opening brace dispatches on the next token. -/
theorem pv_obj (f : Nat) (r : List Char) :
    parseValue (f + 1) ('\x7b' :: r) =
      (match skipWs r with
       | '\x7d' :: r2 => some (Json.obj .nil, r2)
       | r1 => (parseMembers f r1).map (fun p => (Json.obj (buildObj .nil p.1), p.2))) := rfl

/-- Step: a minus sign hands off to the number scanner. -/
theorem pv_neg (f : Nat) (r : List Char) :
    parseValue (f + 1) ('-' :: r) =
      (parseNumber ('-' :: r)).map (fun p => (Json.num p.1, p.2)) := rfl

/-- Step: a digit hands off to the number scanner. -/
theorem pv_digit {c : Char} (f : Nat) (t : List Char) (h : c.isDigit = true) :
    parseValue (f + 1) (c :: t) =
      (parseNumber (c :: t)).map (fun p => (Json.num p.1, p.2)) := by
  conv_lhs => rw [parseValue.eq_def]
  simp only []
  rw [if_neg (digit_ne h (by decide)), if_neg (digit_ne h (by decide)),
    if_neg (digit_ne h (by decide)), if_neg (digit_ne h (by decide)),
    if_neg (digit_ne h (by decide)), if_neg (digit_ne h (by decide)),
    if_pos (Or.inr h)]

/-- Step: one array item and its continuation. -/
theorem pi_step (f : Nat) (s : List Char) :
    parseItems (f + 1) s =
      (match parseValue f s with
       | none => none
       | some (v, r) =>
         match skipWs r with
         | ']' :: r2 => some (.cons v .nil, r2)
         | ',' :: r2 => (parseItems f (skipWs r2)).map (fun p => (.cons v p.1, p.2))
         | _ => none) := rfl

/-- Step: one object member and its continuation. -/
theorem pm_quote (f : Nat) (s1 : List Char) :
    parseMembers (f + 1) ('\"' :: s1) =
      (match parseStringBody (s1.length + 1) s1 with
       | none => none
       | some (k, s2) =>
         match skipWs s2 with
         | ':' :: s3 =>
           match parseValue f (skipWs s3) with
           | none => none
           | some (v, s4) =>
             match skipWs s4 with
             | '\x7d' :: s5 => some (.cons k v .nil, s5)
             | ',' :: s5 =>
               (parseMembers f (skipWs s5)).map (fun p => (.cons k v p.1, p.2))
             | _ => none
         | _ => none) := rfl

/-- A newline stops the number scanner. -/
theorem numStop_newline (l : List Char) : numStop ('\n' :: l) = true := rfl

/-- A comma stops the number scanner. -/
theorem numStop_comma (l : List Char) : numStop (',' :: l) = true := rfl

/-- A space is skipped. -/
theorem skipWs_space (x : List Char) : skipWs (' ' :: x) = skipWs x := rfl

/-- Indentation has two spaces per level. -/
theorem ind_length (k : Nat) : (ind k).length = 2 * k := by simp [ind]

/-- A serialized value is never empty. -/
theorem dumpsVal_length_pos (lvl : Nat) (v : Json) : 1 ≤ (dumpsVal lvl v).length := by
  obtain ⟨c, t, hct, _, _, _⟩ := dumpsVal_head lvl v
  rw [hct]
  simp

/-- Array items: a value followed by the closing bracket ends the item list. -/
theorem pi_close {f : Nat} {s r rest : List Char} {x : Json}
    (hv : parseValue f s = some (x, r)) (hr : skipWs r = ']' :: rest) :
    parseItems (f + 1) s = some (.cons x .nil, rest) := by
  rw [pi_step]
  simp [hv, hr]

/-- Array items: a value followed by a comma continues the item list. -/
theorem pi_comma {f : Nat} {s r r2 rest : List Char} {x : Json} {xs : JsonList}
    (hv : parseValue f s = some (x, r)) (hr : skipWs r = ',' :: r2)
    (hrec : parseItems f (skipWs r2) = some (xs, rest)) :
    parseItems (f + 1) s = some (.cons x xs, rest) := by
  rw [pi_step]
  simp [hv, hr, hrec]

/-- Object members: key, colon, value, closing brace ends the member list. -/
theorem pm_close {f : Nat} {s1 s2 s3 s4 s5 : List Char} {k : List Char} {v : Json}
    (hk : parseStringBody (s1.length + 1) s1 = some (k, s2))
    (h2 : skipWs s2 = ':' :: s3)
    (hv : parseValue f (skipWs s3) = some (v, s4))
    (h4 : skipWs s4 = '\x7d' :: s5) :
    parseMembers (f + 1) ('\"' :: s1) = some (.cons k v .nil, s5) := by
  rw [pm_quote]
  simp [hk, h2, hv, h4]

/-- Object members: key, colon, value, comma continues the member list. -/
theorem pm_comma {f : Nat} {s1 s2 s3 s4 s5 rest : List Char} {k : List Char}
    {v : Json} {kvs : JsonMembers}
    (hk : parseStringBody (s1.length + 1) s1 = some (k, s2))
    (h2 : skipWs s2 = ':' :: s3)
    (hv : parseValue f (skipWs s3) = some (v, s4))
    (h4 : skipWs s4 = ',' :: s5)
    (hrec : parseMembers f (skipWs s5) = some (kvs, rest)) :
    parseMembers (f + 1) ('\"' :: s1) = some (.cons k v kvs, rest) := by
  rw [pm_quote]
  simp [hk, h2, hv, h4, hrec]

/-- A bracket whose next token is not `]` starts a non-empty array. -/
theorem pv_arr_items {f : Nat} {r t : List Char} {c : Char}
    (hr : skipWs r = c :: t) (hc : ¬c = ']') :
    parseValue (f + 1) ('[' :: r) =
      (parseItems f (c :: t)).map (fun p => (Json.arr p.1, p.2)) := by
  rw [pv_arr, hr]
  split
  · next r2 heq =>
    rw [List.cons.injEq] at heq
    exact absurd heq.1 hc
  · rfl

/-- A brace whose next token is not a closing brace starts a non-empty object. -/
theorem pv_obj_members {f : Nat} {r t : List Char} {c : Char}
    (hr : skipWs r = c :: t) (hc : ¬c = '\x7d') :
    parseValue (f + 1) ('\x7b' :: r) =
      (parseMembers f (c :: t)).map (fun p => (Json.obj (buildObj .nil p.1), p.2)) := by
  rw [pv_obj, hr]
  split
  · next r2 heq =>
    rw [List.cons.injEq] at heq
    exact absurd heq.1 hc
  · rfl

theorem parse_dumps_aux : ∀ fuel : Nat,
    (∀ (v : Json) (lvl : Nat) (rest : List Char),
      wfJson v = true → (dumpsVal lvl v).length < fuel → numStop rest = true →
      parseValue fuel (dumpsVal lvl v ++ rest) = some (v, rest)) ∧
    (∀ (x : Json) (xs : JsonList) (lvl kk : Nat) (rest : List Char),
      wfJson x = true → wfList xs = true →
      (dumpsVal lvl x).length + (dumpsItems lvl xs).length + 1 < fuel →
      parseItems fuel
        (dumpsVal lvl x ++ (dumpsItems lvl xs ++ ('\n' :: (ind kk ++ (']' :: rest))))) =
        some (.cons x xs, rest)) ∧
    (∀ (ky : List Char) (v : Json) (kvs : JsonMembers) (lvl jj : Nat) (rest : List Char),
      wfJson v = true → wfVals kvs = true →
      (quoteString ky).length + (dumpsVal lvl v).length + (dumpsMembers lvl kvs).length + 1 < fuel →
      parseMembers fuel
        (quoteString ky ++ (':' :: ' ' :: (dumpsVal lvl v ++
          (dumpsMembers lvl kvs ++ ('\n' :: (ind jj ++ ('\x7d' :: rest))))))) =
        some (.cons ky v kvs, rest)) := by
  intro fuel
  induction fuel with
  | zero =>
    refine ⟨?_, ?_, ?_⟩
    · intro v lvl rest _ hlen _
      exact absurd hlen (Nat.not_lt_zero _)
    · intro x xs lvl kk rest _ _ hlen
      exact absurd hlen (Nat.not_lt_zero _)
    · intro ky v kvs lvl jj rest _ _ hlen
      exact absurd hlen (Nat.not_lt_zero _)
  | succ f ih =>
    obtain ⟨ihP, ihQ, ihR⟩ := ih
    refine ⟨?_, ?_, ?_⟩
    · -- one value
      intro v lvl rest hwf hlen hstop
      cases v with
      | null =>
        rw [show dumpsVal lvl Json.null ++ rest = 'n' :: 'u' :: 'l' :: 'l' :: rest from rfl]
        exact pv_null f rest
      | bool b =>
        cases b with
        | true =>
          rw [show dumpsVal lvl (Json.bool true) ++ rest = 't' :: 'r' :: 'u' :: 'e' :: rest from rfl]
          exact pv_true f rest
        | false =>
          rw [show dumpsVal lvl (Json.bool false) ++ rest =
            'f' :: 'a' :: 'l' :: 's' :: 'e' :: rest from rfl]
          exact pv_false f rest
      | num i =>
        have hpn := parseNumber_intToChars i rest hstop
        by_cases hneg : i < 0
        · have hsh : dumpsVal lvl (Json.num i) ++ rest = '-' :: (natToDigits i.natAbs ++ rest) := by
            rw [show dumpsVal lvl (Json.num i) = intToChars i from rfl, intToChars,
              if_pos hneg, List.cons_append]
          rw [hsh, pv_neg]
          rw [intToChars, if_pos hneg, List.cons_append] at hpn
          rw [hpn]
          rfl
        · obtain ⟨d, ds, hds, _⟩ := natToDigitsAux_cons i.toNat i.toNat
            (lt_trans (Nat.lt_pow_self (by norm_num) _) (Nat.pow_lt_pow_succ (by norm_num)))
          have hdig : d.isDigit = true :=
            natToDigitsAux_digits _ _ d (by rw [hds]; exact List.mem_cons_self ..)
          have hone : dumpsVal lvl (Json.num i) = natToDigits i.toNat := by
            rw [show dumpsVal lvl (Json.num i) = intToChars i from rfl, intToChars, if_neg hneg]
          have hsh : dumpsVal lvl (Json.num i) ++ rest = d :: (ds ++ rest) := by
            rw [hone]
            unfold natToDigits
            rw [hds, List.cons_append]
          rw [hsh, pv_digit f _ hdig]
          rw [show intToChars i = natToDigits i.toNat from by
            rw [intToChars, if_neg hneg]] at hpn
          unfold natToDigits at hpn
          rw [hds, List.cons_append] at hpn
          rw [hpn]
          rfl
      | str s =>
        have hsh : dumpsVal lvl (Json.str s) ++ rest = '\"' :: (escapeString s ++ '\"' :: rest) := by
          rw [show dumpsVal lvl (Json.str s) = quoteString s from rfl, quoteString]
          simp
        rw [hsh, pv_str,
          parseStringBody_escape s ((escapeString s ++ '\"' :: rest).length + 1) rest
            (by simp [List.length_append]; omega)]
        rfl
      | arr xs =>
        cases xs with
        | nil =>
          rw [show dumpsVal lvl (Json.arr .nil) ++ rest = '[' :: ']' :: rest from rfl, pv_arr]
          rfl
        | cons x xs' =>
          have hw : wfJson x = true ∧ wfList xs' = true := by
            have h2 : wfList (JsonList.cons x xs') = true := hwf
            simp only [wfList, Bool.and_eq_true] at h2
            exact h2
          obtain ⟨c0, t0, hct, hws, hbr, _⟩ := dumpsVal_head (lvl + 1) x
          have hsh : dumpsVal lvl (Json.arr (.cons x xs')) ++ rest =
              '[' :: ('\n' :: (ind (lvl + 1) ++ (dumpsVal (lvl + 1) x ++
                (dumpsItems (lvl + 1) xs' ++ ('\n' :: (ind lvl ++ (']' :: rest))))))) := by
            rw [show dumpsVal lvl (Json.arr (.cons x xs')) =
              '[' :: '\n' :: ind (lvl + 1) ++ dumpsVal (lvl + 1) x ++
                dumpsItems (lvl + 1) xs' ++ '\n' :: ind lvl ++ [']'] from rfl]
            simp [List.append_assoc]
          have hskip : skipWs ('\n' :: (ind (lvl + 1) ++ (dumpsVal (lvl + 1) x ++
              (dumpsItems (lvl + 1) xs' ++ ('\n' :: (ind lvl ++ (']' :: rest))))))) =
              c0 :: (t0 ++ (dumpsItems (lvl + 1) xs' ++ ('\n' :: (ind lvl ++ (']' :: rest))))) := by
            rw [skipWs_newline, skipWs_ind, hct, List.cons_append, skipWs_cons_not _ hws]
          have hback : c0 :: (t0 ++ (dumpsItems (lvl + 1) xs' ++ ('\n' :: (ind lvl ++ (']' :: rest))))) =
              dumpsVal (lvl + 1) x ++ (dumpsItems (lvl + 1) xs' ++ ('\n' :: (ind lvl ++ (']' :: rest)))) := by
            rw [hct, List.cons_append]
          have hexp : (dumpsVal lvl (Json.arr (.cons x xs'))).length =
              (dumpsVal (lvl + 1) x).length + (dumpsItems (lvl + 1) xs').length +
                (2 * (lvl + 1) + 2 * lvl + 4) := by
            rw [show dumpsVal lvl (Json.arr (.cons x xs')) =
              '[' :: '\n' :: ind (lvl + 1) ++ dumpsVal (lvl + 1) x ++
                dumpsItems (lvl + 1) xs' ++ '\n' :: ind lvl ++ [']'] from rfl]
            simp [List.length_append, ind_length]
            omega
          rw [hsh, pv_arr_items hskip hbr, hback,
            ihQ x xs' (lvl + 1) lvl rest hw.1 hw.2 (by omega)]
          rfl
      | obj kvs =>
        cases kvs with
        | nil =>
          rw [show dumpsVal lvl (Json.obj .nil) ++ rest = '\x7b' :: '\x7d' :: rest from rfl, pv_obj]
          rfl
        | cons k v' kvs' =>
          have hm : wfMembers (.cons k v' kvs') = true := hwf
          have hw : wfJson v' = true ∧ wfMembers kvs' = true := by
            have h2 := hm
            simp only [wfMembers, Bool.and_eq_true] at h2
            exact ⟨h2.1.2, h2.2⟩
          have hsh : dumpsVal lvl (Json.obj (.cons k v' kvs')) ++ rest =
              '\x7b' :: ('\n' :: (ind (lvl + 1) ++ ('\"' :: (escapeString k ++
                ('\"' :: (':' :: ' ' :: (dumpsVal (lvl + 1) v' ++
                  (dumpsMembers (lvl + 1) kvs' ++ ('\n' :: (ind lvl ++ ('\x7d' :: rest))))))))))) := by
            rw [show dumpsVal lvl (Json.obj (.cons k v' kvs')) =
              '\x7b' :: '\n' :: ind (lvl + 1) ++ quoteString k ++ ':' :: ' ' ::
                dumpsVal (lvl + 1) v' ++ dumpsMembers (lvl + 1) kvs' ++
                '\n' :: ind lvl ++ ['\x7d'] from rfl, quoteString]
            simp [List.append_assoc]
          have hskip : skipWs ('\n' :: (ind (lvl + 1) ++ ('\"' :: (escapeString k ++
              ('\"' :: (':' :: ' ' :: (dumpsVal (lvl + 1) v' ++
                (dumpsMembers (lvl + 1) kvs' ++ ('\n' :: (ind lvl ++ ('\x7d' :: rest))))))))))) =
              '\"' :: (escapeString k ++
              ('\"' :: (':' :: ' ' :: (dumpsVal (lvl + 1) v' ++
                (dumpsMembers (lvl + 1) kvs' ++ ('\n' :: (ind lvl ++ ('\x7d' :: rest)))))))) := by
            rw [skipWs_newline, skipWs_ind, skipWs_cons_not _ (by decide)]
          have hexp : (dumpsVal lvl (Json.obj (.cons k v' kvs'))).length =
              (quoteString k).length + (dumpsVal (lvl + 1) v').length +
                (dumpsMembers (lvl + 1) kvs').length + (2 * (lvl + 1) + 2 * lvl + 6) := by
            rw [show dumpsVal lvl (Json.obj (.cons k v' kvs')) =
              '\x7b' :: '\n' :: ind (lvl + 1) ++ quoteString k ++ ':' :: ' ' ::
                dumpsVal (lvl + 1) v' ++ dumpsMembers (lvl + 1) kvs' ++
                '\n' :: ind lvl ++ ['\x7d'] from rfl]
            simp [List.length_append, ind_length]
            omega
          have hquote : quoteString k ++ (':' :: ' ' :: (dumpsVal (lvl + 1) v' ++
              (dumpsMembers (lvl + 1) kvs' ++ ('\n' :: (ind lvl ++ ('\x7d' :: rest)))))) =
              '\"' :: (escapeString k ++ ('\"' :: (':' :: ' ' :: (dumpsVal (lvl + 1) v' ++
                (dumpsMembers (lvl + 1) kvs' ++ ('\n' :: (ind lvl ++ ('\x7d' :: rest)))))))) := by
            rw [quoteString]
            simp [List.append_assoc]
          rw [hsh, pv_obj_members hskip (by decide), ← hquote,
            ihR k v' kvs' (lvl + 1) lvl rest hw.1 (wfVals_of_wfMembers kvs' hw.2) (by omega)]
          simp [buildObj_wf _ hm]
    · -- items of a non-empty array
      intro x xs lvl kk rest hwx hwxs hlen
      cases xs with
      | nil =>
        have hx : parseValue f (dumpsVal lvl x ++ ('\n' :: (ind kk ++ (']' :: rest)))) =
            some (x, '\n' :: (ind kk ++ (']' :: rest))) := by
          have hil : (dumpsItems lvl JsonList.nil).length = 0 := rfl
          exact ihP x lvl _ hwx (by omega) (numStop_newline _)
        have hcl : skipWs ('\n' :: (ind kk ++ (']' :: rest))) = ']' :: rest := by
          rw [skipWs_newline, skipWs_ind]
          rfl
        rw [show dumpsItems lvl JsonList.nil ++ ('\n' :: (ind kk ++ (']' :: rest))) =
          '\n' :: (ind kk ++ (']' :: rest)) from rfl]
        exact pi_close hx hcl
      | cons y ys =>
        have hw : wfJson y = true ∧ wfList ys = true := by
          simp only [wfList, Bool.and_eq_true] at hwxs
          exact hwxs
        obtain ⟨c0, t0, hct, hws, _, _⟩ := dumpsVal_head lvl y
        have hil : (dumpsItems lvl (JsonList.cons y ys)).length =
            (dumpsVal lvl y).length + (dumpsItems lvl ys).length + (2 * lvl + 2) := by
          rw [show dumpsItems lvl (JsonList.cons y ys) =
            ',' :: '\n' :: ind lvl ++ dumpsVal lvl y ++ dumpsItems lvl ys from rfl]
          simp [List.length_append, ind_length]
          omega
        have hshitems : dumpsItems lvl (JsonList.cons y ys) ++ ('\n' :: (ind kk ++ (']' :: rest))) =
            ',' :: ('\n' :: (ind lvl ++ (dumpsVal lvl y ++
              (dumpsItems lvl ys ++ ('\n' :: (ind kk ++ (']' :: rest))))))) := by
          rw [show dumpsItems lvl (JsonList.cons y ys) =
            ',' :: '\n' :: ind lvl ++ dumpsVal lvl y ++ dumpsItems lvl ys from rfl]
          simp [List.append_assoc]
        have hx : parseValue f (dumpsVal lvl x ++ (dumpsItems lvl (JsonList.cons y ys) ++
            ('\n' :: (ind kk ++ (']' :: rest))))) =
            some (x, dumpsItems lvl (JsonList.cons y ys) ++ ('\n' :: (ind kk ++ (']' :: rest)))) := by
          refine ihP x lvl _ hwx (by omega) ?_
          rw [hshitems]
          exact numStop_comma _
        have hcomma : skipWs (dumpsItems lvl (JsonList.cons y ys) ++
            ('\n' :: (ind kk ++ (']' :: rest)))) =
            ',' :: ('\n' :: (ind lvl ++ (dumpsVal lvl y ++
              (dumpsItems lvl ys ++ ('\n' :: (ind kk ++ (']' :: rest))))))) := by
          rw [hshitems]
          exact skipWs_cons_not _ (by decide)
        have hskip2 : skipWs ('\n' :: (ind lvl ++ (dumpsVal lvl y ++
            (dumpsItems lvl ys ++ ('\n' :: (ind kk ++ (']' :: rest))))))) =
            dumpsVal lvl y ++ (dumpsItems lvl ys ++ ('\n' :: (ind kk ++ (']' :: rest)))) := by
          rw [skipWs_newline, skipWs_ind, hct, List.cons_append, skipWs_cons_not _ hws,
            ← List.cons_append, ← hct]
        have hrec : parseItems f (skipWs ('\n' :: (ind lvl ++ (dumpsVal lvl y ++
            (dumpsItems lvl ys ++ ('\n' :: (ind kk ++ (']' :: rest)))))))) =
            some (ys.cons y, rest) := by
          rw [hskip2]
          have h1 := dumpsVal_length_pos lvl x
          exact ihQ y ys lvl kk rest hw.1 hw.2 (by omega)
        exact pi_comma hx hcomma hrec
    · -- members of a non-empty object
      intro ky v kvs lvl jj rest hwv hwkvs hlen
      have hshq : quoteString ky ++ (':' :: ' ' :: (dumpsVal lvl v ++
          (dumpsMembers lvl kvs ++ ('\n' :: (ind jj ++ ('\x7d' :: rest)))))) =
          '\"' :: (escapeString ky ++ ('\"' :: (':' :: ' ' :: (dumpsVal lvl v ++
            (dumpsMembers lvl kvs ++ ('\n' :: (ind jj ++ ('\x7d' :: rest)))))))) := by
        rw [quoteString]
        simp [List.append_assoc]
      have hkey : parseStringBody ((escapeString ky ++ ('\"' :: (':' :: ' ' :: (dumpsVal lvl v ++
          (dumpsMembers lvl kvs ++ ('\n' :: (ind jj ++ ('\x7d' :: rest)))))))).length + 1)
          (escapeString ky ++ ('\"' :: (':' :: ' ' :: (dumpsVal lvl v ++
            (dumpsMembers lvl kvs ++ ('\n' :: (ind jj ++ ('\x7d' :: rest)))))))) =
          some (ky, ':' :: ' ' :: (dumpsVal lvl v ++
            (dumpsMembers lvl kvs ++ ('\n' :: (ind jj ++ ('\x7d' :: rest)))))) := by
        exact parseStringBody_escape ky _ _ (by simp [List.length_append]; omega)
      have hcolon : skipWs (':' :: ' ' :: (dumpsVal lvl v ++
          (dumpsMembers lvl kvs ++ ('\n' :: (ind jj ++ ('\x7d' :: rest)))))) =
          ':' :: (' ' :: (dumpsVal lvl v ++
            (dumpsMembers lvl kvs ++ ('\n' :: (ind jj ++ ('\x7d' :: rest)))))) := by
        exact skipWs_cons_not _ (by decide)
      have hqlen : 1 ≤ (quoteString ky).length := by
        rw [quoteString]
        simp
      cases kvs with
      | nil =>
        have hv : parseValue f (skipWs (' ' :: (dumpsVal lvl v ++
            (dumpsMembers lvl JsonMembers.nil ++ ('\n' :: (ind jj ++ ('\x7d' :: rest))))))) =
            some (v, '\n' :: (ind jj ++ ('\x7d' :: rest))) := by
          rw [skipWs_space,
            show dumpsMembers lvl JsonMembers.nil ++ ('\n' :: (ind jj ++ ('\x7d' :: rest))) =
              '\n' :: (ind jj ++ ('\x7d' :: rest)) from rfl]
          obtain ⟨c0, t0, hct, hws, _, _⟩ := dumpsVal_head lvl v
          rw [hct, List.cons_append, skipWs_cons_not _ hws, ← List.cons_append, ← hct]
          exact ihP v lvl _ hwv (by omega) (numStop_newline _)
        have hclose : skipWs ('\n' :: (ind jj ++ ('\x7d' :: rest))) = '\x7d' :: rest := by
          rw [skipWs_newline, skipWs_ind]
          rfl
        rw [hshq]
        exact pm_close hkey hcolon hv hclose
      | cons k2 v2 kvs2 =>
        have hw2 : wfJson v2 = true ∧ wfVals kvs2 = true := by
          simp only [wfVals, Bool.and_eq_true] at hwkvs
          exact hwkvs
        have hml : (dumpsMembers lvl (JsonMembers.cons k2 v2 kvs2)).length =
            (quoteString k2).length + (dumpsVal lvl v2).length +
              (dumpsMembers lvl kvs2).length + (2 * lvl + 4) := by
          rw [show dumpsMembers lvl (JsonMembers.cons k2 v2 kvs2) =
            ',' :: '\n' :: ind lvl ++ quoteString k2 ++ ':' :: ' ' ::
              dumpsVal lvl v2 ++ dumpsMembers lvl kvs2 from rfl]
          simp [List.length_append, ind_length]
          omega
        have hshm : dumpsMembers lvl (JsonMembers.cons k2 v2 kvs2) ++
            ('\n' :: (ind jj ++ ('\x7d' :: rest))) =
            ',' :: ('\n' :: (ind lvl ++ (quoteString k2 ++ (':' :: ' ' :: (dumpsVal lvl v2 ++
              (dumpsMembers lvl kvs2 ++ ('\n' :: (ind jj ++ ('\x7d' :: rest))))))))) := by
          rw [show dumpsMembers lvl (JsonMembers.cons k2 v2 kvs2) =
            ',' :: '\n' :: ind lvl ++ quoteString k2 ++ ':' :: ' ' ::
              dumpsVal lvl v2 ++ dumpsMembers lvl kvs2 from rfl, quoteString]
          simp [List.append_assoc]
        have hv : parseValue f (skipWs (' ' :: (dumpsVal lvl v ++
            (dumpsMembers lvl (JsonMembers.cons k2 v2 kvs2) ++
              ('\n' :: (ind jj ++ ('\x7d' :: rest))))))) =
            some (v, dumpsMembers lvl (JsonMembers.cons k2 v2 kvs2) ++
              ('\n' :: (ind jj ++ ('\x7d' :: rest)))) := by
          rw [skipWs_space]
          obtain ⟨c0, t0, hct, hws, _, _⟩ := dumpsVal_head lvl v
          rw [hct, List.cons_append, skipWs_cons_not _ hws, ← List.cons_append, ← hct]
          refine ihP v lvl _ hwv (by omega) ?_
          rw [hshm]
          exact numStop_comma _
        have hcomma : skipWs (dumpsMembers lvl (JsonMembers.cons k2 v2 kvs2) ++
            ('\n' :: (ind jj ++ ('\x7d' :: rest)))) =
            ',' :: ('\n' :: (ind lvl ++ (quoteString k2 ++ (':' :: ' ' :: (dumpsVal lvl v2 ++
              (dumpsMembers lvl kvs2 ++ ('\n' :: (ind jj ++ ('\x7d' :: rest))))))))) := by
          rw [hshm]
          exact skipWs_cons_not _ (by decide)
        have hrec : parseMembers f (skipWs ('\n' :: (ind lvl ++ (quoteString k2 ++
            (':' :: ' ' :: (dumpsVal lvl v2 ++ (dumpsMembers lvl kvs2 ++
              ('\n' :: (ind jj ++ ('\x7d' :: rest)))))))))) =
            some (.cons k2 v2 kvs2, rest) := by
          have hq2 : skipWs ('\n' :: (ind lvl ++ (quoteString k2 ++
              (':' :: ' ' :: (dumpsVal lvl v2 ++ (dumpsMembers lvl kvs2 ++
                ('\n' :: (ind jj ++ ('\x7d' :: rest))))))))) =
              quoteString k2 ++ (':' :: ' ' :: (dumpsVal lvl v2 ++ (dumpsMembers lvl kvs2 ++
                ('\n' :: (ind jj ++ ('\x7d' :: rest)))))) := by
            rw [skipWs_newline, skipWs_ind, quoteString, List.cons_append]
            exact skipWs_cons_not _ (by decide)
          rw [hq2]
          have h1 := dumpsVal_length_pos lvl v
          exact ihR k2 v2 kvs2 lvl jj rest hw2.1 hw2.2 (by omega)
        rw [hshq]
        exact pm_comma hkey hcolon hv hcomma hrec

/-- Python-dict insertion preserves key distinctness and value
well-formedness. -/
theorem wfMembers_insertKV : ∀ (acc : JsonMembers) (k : List Char) (v : Json),
    wfMembers acc = true → wfJson v = true → wfMembers (insertKV acc k v) = true
  | .nil, k, v, _, hv => by simp [insertKV, wfMembers, hasKey, hv]
  | .cons k' v' t, k, v, ha, hv => by
    simp only [wfMembers, Bool.and_eq_true, Bool.not_eq_eq_eq_not, Bool.not_true] at ha
    by_cases h : k' = k
    · subst h
      rw [insertKV, if_pos rfl]
      simp [wfMembers, ha.1.1, hv, ha.2]
    · rw [insertKV, if_neg h]
      have hkk : ¬k = k' := fun he => h he.symm
      simp [wfMembers, hasKey_insertKV, ha.1.1, ha.1.2, hkk,
        wfMembers_insertKV t k v ha.2 hv]

/-- The dict built from any member list with well-formed values is
well-formed. -/
theorem wfMembers_buildObj : ∀ (ms acc : JsonMembers), wfMembers acc = true →
    wfVals ms = true → wfMembers (buildObj acc ms) = true
  | .nil, acc, ha, _ => by rw [buildObj]; exact ha
  | .cons k v t, acc, ha, hv => by
    simp only [wfVals, Bool.and_eq_true] at hv
    rw [buildObj]
    exact wfMembers_buildObj t _ (wfMembers_insertKV acc k v ha hv.1) hv.2

/-- Everything the parser produces is well-formed: every object it builds went
through the dict, so its keys are distinct. -/
theorem parse_wf_aux : ∀ fuel : Nat,
    (∀ (s : List Char) (v : Json) (r : List Char),
      parseValue fuel s = some (v, r) → wfJson v = true) ∧
    (∀ (s : List Char) (xs : JsonList) (r : List Char),
      parseItems fuel s = some (xs, r) → wfList xs = true) ∧
    (∀ (s : List Char) (ms : JsonMembers) (r : List Char),
      parseMembers fuel s = some (ms, r) → wfVals ms = true) := by
  intro fuel
  induction fuel with
  | zero =>
    refine ⟨?_, ?_, ?_⟩ <;> intro s a r h <;> cases h
  | succ f ih =>
    obtain ⟨ihP, ihQ, ihR⟩ := ih
    refine ⟨?_, ?_, ?_⟩
    · intro s v r h
      cases s with
      | nil => cases h
      | cons c rest =>
        rw [parseValue.eq_def] at h
        simp only [] at h
        split_ifs at h
        · split at h
          all_goals first
          | (cases h; rfl)
          | cases h
        · split at h
          all_goals first
          | (cases h; rfl)
          | cases h
        · split at h
          all_goals first
          | (cases h; rfl)
          | cases h
        · rw [Option.map_eq_some'] at h
          obtain ⟨p, _, heq⟩ := h
          rw [Prod.mk.injEq] at heq
          rw [← heq.1]
          rfl
        · split at h
          · cases h
            rfl
          · rw [Option.map_eq_some'] at h
            obtain ⟨p, hp, heq⟩ := h
            rw [Prod.mk.injEq] at heq
            rw [← heq.1]
            exact ihQ _ p.1 p.2 hp
        · split at h
          · cases h
            rfl
          · rw [Option.map_eq_some'] at h
            obtain ⟨p, hp, heq⟩ := h
            rw [Prod.mk.injEq] at heq
            rw [← heq.1]
            exact wfMembers_buildObj p.1 .nil rfl (ihR _ p.1 p.2 hp)
        · rw [Option.map_eq_some'] at h
          obtain ⟨p, _, heq⟩ := h
          rw [Prod.mk.injEq] at heq
          rw [← heq.1]
          rfl
    · intro s xs r h
      rw [pi_step] at h
      split at h
      · cases h
      · split at h
        · cases h
          simp only [wfList, Bool.and_eq_true]
          exact ⟨ihP _ _ _ (by assumption), trivial⟩
        · rw [Option.map_eq_some'] at h
          obtain ⟨p, hp, heq⟩ := h
          rw [Prod.mk.injEq] at heq
          rw [← heq.1]
          simp only [wfList, Bool.and_eq_true]
          exact ⟨ihP _ _ _ (by assumption), ihQ _ _ _ hp⟩
        · cases h
    · intro s ms r h
      cases s with
      | nil => cases h
      | cons c rest =>
        by_cases hc : c = '\"'
        · subst hc
          rw [pm_quote] at h
          split at h
          · cases h
          · split at h
            · split at h
              · cases h
              · split at h
                · cases h
                  simp only [wfVals, Bool.and_eq_true]
                  exact ⟨ihP _ _ _ (by assumption), trivial⟩
                · rw [Option.map_eq_some'] at h
                  obtain ⟨p, hp, heq⟩ := h
                  rw [Prod.mk.injEq] at heq
                  rw [← heq.1]
                  simp only [wfVals, Bool.and_eq_true]
                  exact ⟨ihP _ _ _ (by assumption), ihR _ _ _ hp⟩
                · cases h
            · cases h
        · rw [show parseMembers (f + 1) (c :: rest) = none from by
            rw [parseMembers.eq_def]
            simp only []
            split
            · next heq =>
              rw [List.cons.injEq] at heq
              exact absurd heq.1 hc
            · rfl] at h
          cases h

/-- Round trip: re-parsing the pretty-printed dump of a well-formed value
yields the value back. -/
theorem jsonLoads_jsonDumps {v : Json} (hwf : wfJson v = true) :
    jsonLoads (jsonDumps v) = some v := by
  have hP := (parse_dumps_aux ((dumpsVal 0 v).length + 1)).1 v 0 [] hwf (by omega) rfl
  rw [List.append_nil] at hP
  obtain ⟨c, t, hct, hws, _, _⟩ := dumpsVal_head 0 v
  unfold jsonLoads
  rw [show skipWs (jsonDumps v) = jsonDumps v from by
    rw [show jsonDumps v = dumpsVal 0 v from rfl, hct]
    exact skipWs_cons_not _ hws]
  rw [show parseValue ((jsonDumps v).length + 1) (jsonDumps v) = some (v, []) from hP]
  rfl

/-- Anything `json.load` returns is well-formed. -/
theorem jsonLoads_wf {s : List Char} {v : Json} (h : jsonLoads s = some v) :
    wfJson v = true := by
  unfold jsonLoads at h
  split at h
  · split_ifs at h
    cases h
    exact (parse_wf_aux _).1 _ _ _ (by assumption)
  · cases h

/-- Claim C5: for every deployment record the reading loop stores (a value
parsed by `json.load` from an input file), re-parsing the pretty-printed JSON
emitted for that chain in the output (`json.dumps(·, indent=2)`, exactly the
substring the write block interpolates) yields the same value — parse,
serialize, re-parse is the identity on collected records. -/
theorem claim_C5 (fs : InputFS) (m : List (List Char × Json))
    (hc : collect fs = .ok m) :
    ∀ kv ∈ m, jsonLoads (jsonDumps kv.2) = some kv.2 := by
  intro kv hkv
  obtain ⟨_, _, t, _, hl⟩ := collectFrom_mem_spec fs.file fs.listing m hc kv hkv
  exact jsonLoads_jsonDumps (jsonLoads_wf hl)

/-- Witness for C5 at a concrete collected record. -/
theorem claim_C5_witness : jsonLoads (jsonDumps routerVal) = some routerVal :=
  claim_C5 fsTwo mTwo rfl (chars "1", routerVal) (List.mem_cons_self ..)
